import Mathlib

/-!
Verification development for the ai-sdlc-agent repository.

The embedding translates the JavaScript/JSX source of the UI (and the
backend pipeline state machine documented in the repository) into Lean
definitions, and proves the properties claimed by the specification.

Strings coming from the source are modelled as Lean `String` where only
equality is needed, and as `List Char` where the source manipulates their
character structure (splitting, slicing, prefix tests).
-/

namespace AiSdlc

/-! ## Backend pipeline state machine (README, mermaid `stateDiagram-v2`)

The backend orchestration graph is documented in the repository as a
mermaid state diagram: `[*] -> RequirementAnalyzer` for every action;
after `RequirementAnalyzer`, an `ActionDecision` choice sends
`analyze_requirements` to `[*]`, `generate_code` and `full_pipeline` to
`CodeGenerator`, `generate_tests` to `TestGenerator`; after
`CodeGenerator`, `generate_code` goes to `[*]` and `full_pipeline` to
`TestGenerator`; `TestGenerator` always goes to `[*]`. -/

inductive Stage where
  | requirement
  | code
  | test
deriving DecidableEq, Repr

inductive Action where
  | analyze_requirements
  | generate_code
  | generate_tests
  | full_pipeline
deriving DecidableEq, Repr

/-- The transition function of the backend pipeline state machine:
`none` as the current stage is the start node, a `none` result is
pipeline termination.  Transcribed edge by edge from the mermaid
diagram (transitions only fire on completion of the current stage). -/
def nextStage : Option Stage → Action → Option Stage
  | none, _ => some .requirement
  | some .requirement, .analyze_requirements => none
  | some .requirement, .generate_code => some .code
  | some .requirement, .generate_tests => some .test
  | some .requirement, .full_pipeline => some .code
  | some .code, .generate_code => none
  | some .code, .full_pipeline => some .test
  | some .code, _ => none
  | some .test, _ => none

/-- The stage sequence realized by a run in which every stage completes:
iterate `nextStage` from the start node, collecting the stages entered.
Fuel 4 is enough: the longest path visits three stages. -/
def runStages : Option Stage → Action → Nat → List Stage
  | _, _, 0 => []
  | cur, a, fuel + 1 =>
    match nextStage cur a with
    | none => []
    | some s => s :: runStages (some s) a fuel

def realizedStages (a : Action) : List Stage :=
  runStages none a 4

/-! ## Action mapping in the two `runPipeline` implementations

Both App components derive the backend `action` string from the set of
selected agents (`formData.actions`, a list of the ids `req`, `code`,
`test`).  The first (`part_000`, lines 402-419) uses a seven-branch
chain; the second (`part_001`, lines 97-107) uses a three-branch chain. -/

/-- Action mapping of `runPipeline` in `src/unnamed/part_000`
(lines 402-419), branch for branch. -/
def actionOf000 (sel : List String) : String :=
  if sel.contains "req" && sel.contains "code" && sel.contains "test" then
    "full_pipeline"
  else if sel.contains "req" && sel.contains "code" then
    "generate_code"
  else if sel.contains "req" && sel.contains "test" then
    "generate_tests"
  else if sel.contains "code" && sel.contains "test" then
    "full_pipeline"
  else if sel.contains "code" then
    "generate_code"
  else if sel.contains "test" then
    "generate_tests"
  else if sel.contains "req" then
    "analyze_requirements"
  else
    "analyze_requirements"

/-- Action mapping of `runPipeline` in `src/unnamed/part_001`
(lines 97-107): `hasReq`/`hasCode`/`hasTest` are the membership tests,
the default is the initial value of the `action` variable. -/
def actionOf001 (sel : List String) : String :=
  let hasReq := sel.contains "req"
  let hasCode := sel.contains "code"
  let hasTest := sel.contains "test"
  if hasReq && hasCode && hasTest then "full_pipeline"
  else if hasCode && !hasTest then "generate_code"
  else if hasTest && !hasCode then "generate_tests"
  else "analyze_requirements"

/-- The canonical selection list for a subset of the agent id set
{req, code, test}, given by the three membership flags. -/
def selOf (r c t : Bool) : List String :=
  (if r then ["req"] else []) ++ (if c then ["code"] else []) ++
    (if t then ["test"] else [])

def actionStrings : List String :=
  ["analyze_requirements", "generate_code", "generate_tests", "full_pipeline"]

/-! ## Validation guard of `runPipeline` (`part_000`, lines 391-396)

`runPipeline` begins with
`if ((!formData.jiraId && !formData.repoUrl) || formData.actions.length === 0)
{ showToast(...); return; }` — before any state change and before the
`api.analyzeTicket` call.  The Run button (lines 637-640) is disabled
under the same condition.  The effect prefix of the call is modelled
explicitly: which view is set, which toast is shown, and whether the
analyze API is reached (and with which action). -/

structure PipelineCall where
  view : Option String
  toast : Option (String × String)
  apiCalled : Bool
  apiAction : Option String
deriving DecidableEq, Repr

/-- Effect prefix of `runPipeline` in `src/unnamed/part_000`: the guard
fires exactly when both text inputs are empty (JS falsy strings) or no
agent is selected; otherwise the view switches to `executing` and the
analyze endpoint is called with the mapped action. -/
def runPipeline000 (jiraId repoUrl : String) (actions : List String) :
    PipelineCall :=
  if (jiraId = "" && repoUrl = "") || actions.length = 0 then
    { view := none
      toast := some ("Please provide input and select at least one agent", "error")
      apiCalled := false
      apiAction := none }
  else
    { view := some "executing"
      toast := none
      apiCalled := true
      apiAction := some (actionOf000 actions) }

/-- The `disabled` condition of the Run button
(`src/unnamed/part_000`, lines 637-640). -/
def runButtonDisabled (jiraId repoUrl : String) (actions : List String) : Bool :=
  (jiraId = "" && repoUrl = "") || actions.isEmpty

/-! ## Workflow tab events (`part_000`, lines 1049-1052)

The Workflow tab synthesizes the event list from the analyze response:
`(apiResponse.agents || []).flatMap(agent => [node_start, node_complete
or node_error])`.  The `new Date().toISOString()` fallback for a missing
timestamp is the parameter `now`. -/

structure AgentRec where
  agent_name : String
  status : String
  started_at : Option String
  completed_at : Option String
deriving DecidableEq, Repr

structure WfEvent where
  event : String
  node : String
  timestamp : String
deriving DecidableEq, Repr

/-- The `events` prop handed to `WorkflowVisualizer`: per agent a
`node_start` followed by `node_complete` when its status is
`completed`, else `node_error`. -/
def wfEvents (now : String) (agents : List AgentRec) : List WfEvent :=
  agents.flatMap (fun a =>
    [ { event := "node_start", node := a.agent_name,
        timestamp := a.started_at.getD now },
      { event := if a.status = "completed" then "node_complete" else "node_error",
        node := a.agent_name,
        timestamp := a.completed_at.getD now } ])

def isNodeStart (e : WfEvent) : Bool := e.event = "node_start"

def isNodeEnd (e : WfEvent) : Bool :=
  e.event = "node_complete" || e.event = "node_error"

/-! ## TraceabilityMatrix (`src/ui/src/components/TraceabilityMatrix.jsx`)

`traceabilityData` (lines 34-81) builds one map entry per distinct
requirement id (a JS object key), links each code change to the ids in
its `implements_requirements` and each test to its truthy
`covers_requirement`, then classifies every entry; `stats` (lines
84-99) counts entries by status and computes rounded percentages. -/

structure ReqItem where
  id : String
  description : String
  priority : String
deriving DecidableEq, Repr

structure CodeChange where
  implements_requirements : Option (List String)
deriving DecidableEq, Repr

structure TestItem where
  covers_requirement : Option String
deriving DecidableEq, Repr

/-- The distinct requirement ids in first-occurrence order: the keys of
the JS object `map` after `requirements.forEach(req => map[req.id] = ...)`. -/
def jsKeys (l : List String) : List String :=
  l.foldl (fun acc x => if acc.contains x then acc else acc ++ [x]) []

/-- Entry `reqId` has at least one linked code change: some change's
`implements_requirements || []` contains the id. -/
def reqHasCode (codeChanges : List CodeChange) (reqId : String) : Bool :=
  codeChanges.any (fun c => (c.implements_requirements.getD []).contains reqId)

/-- Entry `reqId` has at least one linked test: some test's
`covers_requirement` is truthy (a non-empty string) and equals the id. -/
def reqHasTests (tests : List TestItem) (reqId : String) : Bool :=
  tests.any (fun t =>
    match t.covers_requirement with
    | some s => !(s = "") && s = reqId
    | none => false)

/-- The status computed for one entry (lines 66-78). -/
def entryStatus (codeChanges : List CodeChange) (tests : List TestItem)
    (reqId : String) : String :=
  if reqHasCode codeChanges reqId && reqHasTests tests reqId then
    "fully_covered"
  else if reqHasCode codeChanges reqId || reqHasTests tests reqId then
    "partially_covered"
  else
    "uncovered"

def traceEntries (requirements : List ReqItem) : List String :=
  jsKeys (requirements.map (fun r => r.id))

def countStatus (requirements : List ReqItem) (codeChanges : List CodeChange)
    (tests : List TestItem) (s : String) : Nat :=
  ((traceEntries requirements).filter
    (fun k => entryStatus codeChanges tests k = s)).length

/-- `Math.round((num / den) * 100)` on natural numbers, for `den > 0`:
the floor of `num * 100 / den + 1/2`. -/
def jsRoundPct (num den : Nat) : Nat := (200 * num + den) / (2 * den)

def coveragePercent (requirements : List ReqItem) (codeChanges : List CodeChange)
    (tests : List TestItem) : Nat :=
  if (traceEntries requirements).length > 0 then
    jsRoundPct (countStatus requirements codeChanges tests "fully_covered")
      (traceEntries requirements).length
  else 0

def partialPercent (requirements : List ReqItem) (codeChanges : List CodeChange)
    (tests : List TestItem) : Nat :=
  if (traceEntries requirements).length > 0 then
    jsRoundPct (countStatus requirements codeChanges tests "fully_covered" +
        countStatus requirements codeChanges tests "partially_covered")
      (traceEntries requirements).length
  else 0

/-! ## Orchestrator resume and locking

The orchestrator itself (`app/orchestration/graph.py`) is not part of
the snapshot; only its UI callers are (for example `resumeWorkflow` in
the api client).  The definitions below are therefore modelled from the
specification, §4.2 and §5, and follow the Transition Table embedded
above as `nextStage`. -/

/-- Modelled from the spec: a StageResult of §3 — stage name, completed
or failed, and the opaque payload (the error detail when failed).
Timestamps are omitted: no claim mentions them. -/
structure StageResult where
  stage : Stage
  completed : Bool
  payload : String
deriving DecidableEq, Repr

inductive RunStatus where
  | running
  | completed
  | failed
deriving DecidableEq, Repr

/-- Modelled from the spec: the RunState of §3 — run identifier, ticket,
action, append-only StageResults, current stage pointer, overall
status. -/
structure RunState where
  runId : String
  ticket : String
  action : Action
  results : List StageResult
  current : Option Stage
  status : RunStatus
deriving DecidableEq, Repr

/-- Modelled from the spec: the Checkpoint Store of §4.3 keyed by run
identifier, restricted to its `latest` view (the only operation the
resume claims need). -/
def Store : Type := List (String × RunState)

def storeLookup : Store → String → Option RunState
  | [], _ => none
  | (k, v) :: rest, rid => if k = rid then some v else storeLookup rest rid

def storeSave (store : Store) (rid : String) (st : RunState) : Store :=
  (rid, st) :: store

/-- Modelled from the spec: invoking the Stage bound to `s` through its
injected capability `cap`; on success a completed StageResult is
appended, on failure a failed one and the run is marked failed
(§4.2 main loop). -/
def stepStage (cap : Stage → Except String String) (st : RunState)
    (s : Stage) : RunState :=
  match cap s with
  | .ok p =>
    { st with
        results := st.results ++ [⟨s, true, p⟩]
        current := some s }
  | .error e =>
    { st with
        results := st.results ++ [⟨s, false, e⟩]
        current := some s
        status := RunStatus.failed }

/-- Modelled from the spec: the orchestrator main loop of §4.2 — consult
the Transition Table, invoke the stage, stop on failure or termination.
Returns the final RunState and the list of stages invoked.  Fuel 4
bounds the longest path (three stages). -/
def runLoop (cap : Stage → Except String String) :
    RunState → Nat → RunState × List Stage
  | st, 0 => (st, [])
  | st, fuel + 1 =>
    if st.status = .failed then (st, [])
    else
      match nextStage st.current st.action with
      | none => ({ st with status := .completed }, [])
      | some s =>
        let r := runLoop cap (stepStage cap st s) fuel
        (r.1, s :: r.2)

/-- Modelled from the spec: `execute(ticket, action, runId)` of §4.2.
If a terminal RunState for `runId` exists in the store it is returned
immediately with no stage invoked; a non-terminal one re-enters the
loop; otherwise a fresh RunState is created.  Returns the final
RunState, the updated store, and the stages invoked. -/
def executeModel (cap : Stage → Except String String) (store : Store)
    (ticket : String) (a : Action) (rid : String) :
    RunState × Store × List Stage :=
  match storeLookup store rid with
  | some st =>
    if st.status = .running then
      let r := runLoop cap st 4
      (r.1, storeSave store rid r.1, r.2)
    else
      (st, store, [])
  | none =>
    let r := runLoop cap ⟨rid, ticket, a, [], none, .running⟩ 4
    (r.1, storeSave store rid r.1, r.2)

/-- Modelled from the spec: the per-run execution lock of §4.2/§5 —
an atomic test-and-set on the set of held run identifiers. -/
def acquireLock (locks : List String) (rid : String) : Option (List String) :=
  match locks.contains rid with
  | true => none
  | false => some (rid :: locks)

inductive CallOutcome where
  | proceeds
  | concurrentRunError
deriving DecidableEq, Repr

/-- Modelled from the spec: the lock-acquisition step of one `execute`
call on a non-terminal run — proceed if the lock is acquired, fail with
`ConcurrentRunError` if it is already held. -/
def tryStart (locks : List String) (rid : String) :
    CallOutcome × List String :=
  match acquireLock locks rid with
  | some l2 => (.proceeds, l2)
  | none => (.concurrentRunError, locks)

/-- Modelled from the spec: two simultaneous `execute` calls on the same
run identifier, interleaved at their atomic lock acquisitions. -/
def twoSimultaneous (locks : List String) (rid : String) :
    CallOutcome × CallOutcome :=
  let r1 := tryStart locks rid
  let r2 := tryStart r1.2 rid
  (r1.1, r2.1)

/-! ## SSE parse loop of `analyzeStream` (`src/unnamed/part_002`, lines 79-123)

The stream body arrives in chunks; the loop appends each chunk to a
buffer, splits on newlines, keeps the trailing incomplete line in the
buffer (`lines.pop()`), and walks the complete lines with a
`currentEvent` variable that is initialized to `null` inside the loop
body, hence reset at every chunk.  `event: ` lines set `currentEvent`
to the trimmed suffix; `data: ` lines call `onEvent(JSON.parse(data),
currentEvent)`.  JS strings are modelled as `List Char`; the delivered
pairs are kept pre-parse (the data line and the current event type):
`JSON.parse` and its failure filter are a pure pointwise function of
the data component, so equality or inequality of these pair sequences
transfers to the delivered (parsed payload, event type) pairs. -/

/-- JS `s.split('\n')`. -/
def splitLines : List Char → List (List Char)
  | [] => [[]]
  | c :: cs =>
    if c = '\n' then [] :: splitLines cs
    else
      match splitLines cs with
      | [] => [[c]]
      | l :: ls => (c :: l) :: ls

/-- The same split, as (complete lines, trailing partial line). -/
def splitP : List Char → List (List Char) × List Char
  | [] => ([], [])
  | c :: cs =>
    let r := splitP cs
    if c = '\n' then ([] :: r.1, r.2)
    else
      match r.1 with
      | [] => ([], c :: r.2)
      | h :: t => ((c :: h) :: t, r.2)

def wsChar (c : Char) : Bool :=
  c = ' ' || c = '\t' || c = '\n' || c = '\r'

/-- JS `String.trim` over the whitespace characters that occur here. -/
def jsTrim (l : List Char) : List Char :=
  ((l.dropWhile wsChar).reverse.dropWhile wsChar).reverse

/-- One iteration of the `for (const line of lines)` body: an
`event: ` line replaces `currentEvent` with its trimmed suffix, a
`data: ` line emits `(line.slice(6), currentEvent)`, anything else is
ignored. -/
def sseLine (cur : Option (List Char)) (line : List Char) :
    Option (List Char) × List (List Char × Option (List Char)) :=
  if "event: ".toList.isPrefixOf line then
    (some (jsTrim (line.drop 7)), [])
  else if "data: ".toList.isPrefixOf line then
    (cur, [(line.drop 6, cur)])
  else
    (cur, [])

def sseLines (cur : Option (List Char)) :
    List (List Char) → List (List Char × Option (List Char))
  | [] => []
  | l :: ls =>
    let r := sseLine cur l
    r.2 ++ sseLines r.1 ls

/-- One chunk: append to the buffer, split, keep the last segment as
the new buffer (`lines.pop() || ''`), and process the complete lines
with `currentEvent` starting at `null`. -/
def sseChunk (buffer chunk : List Char) :
    List Char × List (List Char × Option (List Char)) :=
  let ls := splitLines (buffer ++ chunk)
  (ls.getLast?.getD [], sseLines none ls.dropLast)

def sseRunFrom (buffer : List Char) :
    List (List Char) → List (List Char × Option (List Char))
  | [] => []
  | ch :: rest =>
    let r := sseChunk buffer ch
    r.2 ++ sseRunFrom r.1 rest

/-- The ordered (data line, event type) pairs delivered by
`analyzeStream` when the response body arrives as the given chunks. -/
def sseRun (chunks : List (List Char)) :
    List (List Char × Option (List Char)) :=
  sseRunFrom [] chunks

/-- Which data payload (if any) a complete line contributes. -/
def dataLine (l : List Char) : Option (List Char) :=
  if "event: ".toList.isPrefixOf l then none
  else if "data: ".toList.isPrefixOf l then some (l.drop 6)
  else none

/-! ## DiffViewer: `parseDiff` and the `handleDownload` serializer
(`src/ui/src/components/DiffViewer.jsx`, lines 33-76 and 445-461)

`parseDiff` splits the diff text on newlines and folds over the lines:
a `diff --git` line opens a new file (paths from the greedy regex
`diff --git a\/(.+) b\/(.+)`, `unknown` on mismatch), an `@@` line
opens a new hunk when the regex
`@@ -(\d+),?(\d*) \+(\d+),?(\d*) @@(.*)?` matches and a file is open
(counts through `parseInt(..) || 1`), and any other line while a hunk
is open becomes a `+`/`-`/context line of that hunk, bumping the
file's addition/deletion counters.  `handleDownload` rebuilds the
patch text with nested `join('\n')`.

The two regexes are modelled by explicit scanners with the JS
semantics: leftmost start position, greedy quantifiers (for this
pattern shape no other backtracking can succeed, since every
quantifier is followed by a character its own class excludes), and `.`
excluding the line terminators. -/

inductive LineType where
  | add
  | del
  | context
deriving DecidableEq, Repr

structure DiffLineRec where
  content : List Char
  typ : LineType
deriving DecidableEq, Repr

structure Hunk where
  oldStart : Nat
  oldCount : Nat
  newStart : Nat
  newCount : Nat
  header : List Char
  lines : List DiffLineRec
deriving DecidableEq, Repr

structure DiffFile where
  oldPath : List Char
  newPath : List Char
  hunks : List Hunk
  additions : Nat
  deletions : Nat
deriving DecidableEq, Repr

/-- What the JS regex `.` matches: anything but a line terminator. -/
def dotChar (c : Char) : Bool :=
  !(c = '\n' || c = '\r' || c = '\u2028' || c = '\u2029')

/-- JS `parseInt` on the digit-run capture of the hunk regex. -/
def digitsToNat (ds : List Char) : Nat :=
  ds.foldl (fun a c => a * 10 + (c.toNat - 48)) 0

/-- `parseInt(match) || 1`: a missing or zero count becomes 1. -/
def jsParseCount (ds : List Char) : Nat :=
  if digitsToNat ds = 0 then 1 else digitsToNat ds

/-- Position `i` splits `r` as `(.+) b\/(.+)`: nonempty prefix, the
literal, nonempty suffix. -/
def dgValid (r : List Char) (i : Nat) : Bool :=
  decide (1 ≤ i) && " b/".toList.isPrefixOf (r.drop i) && decide (i + 3 < r.length)

/-- The greedy split position: the largest valid `i ≤ n`. -/
def lastValidFrom (r : List Char) : Nat → Option Nat
  | 0 => none
  | i + 1 => if dgValid r (i + 1) then some (i + 1) else lastValidFrom r i

/-- Greedy match of `(.+) b\/(.+)` against `r` (already restricted to
the terminator-free region): split at the last valid occurrence of
the literal. -/
def dgSplit (r : List Char) : Option (List Char × List Char) :=
  match lastValidFrom r r.length with
  | some i => some (r.take i, r.drop (i + 3))
  | none => none

/-- `line.match(/diff --git a\/(.+) b\/(.+)/)`: try each start
position left to right; where the literal `diff --git a/` matches,
the groups must split the terminator-free region that follows. -/
def findDG : List Char → Option (List Char × List Char)
  | [] => none
  | c :: rest =>
    if "diff --git a/".toList.isPrefixOf (c :: rest) then
      match dgSplit (((c :: rest).drop 13).takeWhile dotChar) with
      | some xy => some xy
      | none => findDG rest
    else findDG rest

/-- Match of `@@ -(\d+),?(\d*) \+(\d+),?(\d*) @@(.*)?` at one start
position: the four digit-run captures and the trailing capture. -/
def scanHunkAt (l : List Char) : Option (List Char × List Char × List Char × List Char × List Char) :=
  if "@@ -".toList.isPrefixOf l then
    let r0 := l.drop 4
    let d1 := r0.takeWhile Char.isDigit
    let r1 := r0.dropWhile Char.isDigit
    if d1.isEmpty then none
    else
      let r2 := if r1.head? = some ',' then r1.drop 1 else r1
      let d2 := r2.takeWhile Char.isDigit
      let r3 := r2.dropWhile Char.isDigit
      if " +".toList.isPrefixOf r3 then
        let r4 := r3.drop 2
        let d3 := r4.takeWhile Char.isDigit
        let r5 := r4.dropWhile Char.isDigit
        if d3.isEmpty then none
        else
          let r6 := if r5.head? = some ',' then r5.drop 1 else r5
          let d4 := r6.takeWhile Char.isDigit
          let r7 := r6.dropWhile Char.isDigit
          if " @@".toList.isPrefixOf r7 then
            some (d1, d2, d3, d4, (r7.drop 3).takeWhile dotChar)
          else none
      else none
  else none

/-- Leftmost match of the hunk-header regex in a line. -/
def findHunk : List Char → Option (List Char × List Char × List Char × List Char × List Char)
  | [] => none
  | c :: rest =>
    match scanHunkAt (c :: rest) with
    | some m => some m
    | none => findHunk rest

/-- The fold state of `parseDiff`: completed files, and the file being
built together with the `currentHunk` flag (whether its last hunk is
open — `currentHunk` is nulled when a new file starts and set when an
`@@` line matches). -/
structure ParseState where
  files : List DiffFile
  current : Option (DiffFile × Bool)
deriving DecidableEq, Repr

/-- Append a parsed line to the open (last) hunk. -/
def pushLine : List Hunk → DiffLineRec → List Hunk
  | [], _ => []
  | [h], dl => [{ h with lines := h.lines ++ [dl] }]
  | h :: h2 :: t, dl => h :: pushLine (h2 :: t) dl

/-- `if (currentFile) files.push(currentFile)` plus the files so far. -/
def closeCurrent (st : ParseState) : List DiffFile :=
  st.files ++ (match st.current with | some fc => [fc.1] | none => [])

/-- One line of the `parseDiff` loop. -/
def parseDiffLine (st : ParseState) (line : List Char) : ParseState :=
  if "diff --git".toList.isPrefixOf line then
    let paths :=
      match findDG line with
      | some xy => xy
      | none => ("unknown".toList, "unknown".toList)
    { files := closeCurrent st
      current := some ({ oldPath := paths.1, newPath := paths.2, hunks := [],
                         additions := 0, deletions := 0 }, false) }
  else if "@@".toList.isPrefixOf line then
    match findHunk line, st.current with
    | some m, some fc =>
      let h : Hunk :=
        { oldStart := digitsToNat m.1, oldCount := jsParseCount m.2.1,
          newStart := digitsToNat m.2.2.1, newCount := jsParseCount m.2.2.2.1,
          header := m.2.2.2.2, lines := [] }
      { st with current := some ({ fc.1 with hunks := fc.1.hunks ++ [h] }, true) }
    | _, _ => st
  else
    match st.current with
    | some (f, true) =>
      let t : LineType :=
        if line.head? = some '+' then .add
        else if line.head? = some '-' then .del
        else .context
      let f2 :=
        { f with
          hunks := pushLine f.hunks ⟨line.drop 1, t⟩
          additions := f.additions + (if t = LineType.add then 1 else 0)
          deletions := f.deletions + (if t = LineType.del then 1 else 0) }
      { st with current := some (f2, true) }
    | _ => st

def parseDiffLines (input : List (List Char)) : List DiffFile :=
  closeCurrent (input.foldl parseDiffLine ⟨[], none⟩)

/-- `parseDiff` of DiffViewer.jsx: early return on a falsy (empty)
text, else split on newlines and fold. -/
def parseDiff (s : List Char) : List DiffFile :=
  if s.isEmpty then [] else parseDiffLines (splitLines s)

/-- Decimal digits of a number, as `${n}` prints them. -/
def natDigitsAux : Nat → Nat → List Char
  | 0, _ => []
  | _, 0 => []
  | fuel + 1, n => natDigitsAux fuel (n / 10) ++ [Char.ofNat (48 + n % 10)]

def natToDigitChars (n : Nat) : List Char :=
  if n = 0 then ['0'] else natDigitsAux n n

/-- JS `Array.join(sep)` at the character level. -/
def jsJoin (sep : List Char) : List (List Char) → List Char
  | [] => []
  | x :: xs => x ++ xs.flatMap (fun y => sep ++ y)

/-- One rendered diff line of the download serializer. -/
def lineText (dl : DiffLineRec) : List Char :=
  (match dl.typ with
   | .add => ['+']
   | .del => ['-']
   | .context => [' ']) ++ dl.content

/-- The hunk header line the serializer writes:
`@@ -old,oldCount +new,newCount @@` plus a space and the header when
the header is truthy. -/
def hunkHeaderText (h : Hunk) : List Char :=
  "@@ -".toList ++ natToDigitChars h.oldStart ++ [','] ++
    natToDigitChars h.oldCount ++ " +".toList ++ natToDigitChars h.newStart ++
    [','] ++ natToDigitChars h.newCount ++ " @@".toList ++
    (if h.header.isEmpty then [] else ' ' :: h.header)

def fileHeaderText (f : DiffFile) : List Char :=
  "diff --git a/".toList ++ f.oldPath ++ " b/".toList ++ f.newPath

def hunkText (h : Hunk) : List Char :=
  hunkHeaderText h ++ '\n' :: jsJoin ['\n'] (h.lines.map lineText)

def fileText (f : DiffFile) : List Char :=
  fileHeaderText f ++ '\n' :: jsJoin ['\n'] (f.hunks.map hunkText)

/-- The patch text `handleDownload` serializes from the parsed files
(the branch where no raw `diffContent` is available). -/
def patchText (files : List DiffFile) : List Char :=
  jsJoin ['\n'] (files.map fileText)

/-- Line decomposition of `hunkText` (an empty hunk leaves one empty
line from the terminating newline of the header). -/
def hunkLines (h : Hunk) : List (List Char) :=
  hunkHeaderText h :: (if h.lines.isEmpty then [[]] else h.lines.map lineText)

def fileLines (f : DiffFile) : List (List Char) :=
  fileHeaderText f :: (if f.hunks.isEmpty then [[]] else f.hunks.flatMap hunkLines)

def patchLines (files : List DiffFile) : List (List Char) :=
  if files.isEmpty then [[]] else files.flatMap fileLines

/-! Invariants that `parseDiff` guarantees about its output, used to
prove the serialize/parse round trip. -/

/-- A captured path: nonempty and free of line terminators. -/
def goodPath (p : List Char) : Prop :=
  p ≠ [] ∧ ∀ c ∈ p, dotChar c = true

/-- No occurrence of the literal `\" b/\"` inside `y` has a nonempty
remainder after it (the greedy second capture guarantees this). -/
def noSubTail (y : List Char) : Prop :=
  ∀ k < y.length, " b/".toList.isPrefixOf (y.drop k) → y.length ≤ k + 3

/-- What `parseDiff` guarantees about every hunk it produces (the
round-trip hypotheses make the header empty, so nothing about header
characters is needed here). -/
def goodHunk (h : Hunk) : Prop :=
  1 ≤ h.oldCount ∧ 1 ≤ h.newCount ∧ ∀ dl ∈ h.lines, '\n' ∉ dl.content

def countAdds (hs : List Hunk) : Nat :=
  (hs.map (fun h => (h.lines.filter (fun dl => dl.typ = LineType.add)).length)).sum

def countDels (hs : List Hunk) : Nat :=
  (hs.map (fun h => (h.lines.filter (fun dl => dl.typ = LineType.del)).length)).sum

/-- What `parseDiff` guarantees about every file it produces. -/
def goodFile (f : DiffFile) : Prop :=
  goodPath f.oldPath ∧ goodPath f.newPath ∧ noSubTail f.newPath ∧
    (∀ h ∈ f.hunks, goodHunk h) ∧
    f.additions = countAdds f.hunks ∧ f.deletions = countDels f.hunks

/-- The fold invariant: all closed files are good, the file being
built is good, and an open `currentHunk` flag means it has a hunk. -/
def stGood (st : ParseState) : Prop :=
  (∀ f ∈ st.files, goodFile f) ∧
    ∀ fc, st.current = some fc → goodFile fc.1 ∧ (fc.2 = true → fc.1.hunks ≠ [])

/-- The hypotheses of the round trip on a parsed file: every hunk
header is empty and every hunk has at least one line. -/
def serOk (f : DiffFile) : Prop :=
  ∀ h ∈ f.hunks, h.header = [] ∧ h.lines ≠ []

instance serOkDecidable (f : DiffFile) : Decidable (serOk f) :=
  inferInstanceAs (Decidable (∀ h ∈ f.hunks, h.header = [] ∧ h.lines ≠ []))

end AiSdlc

namespace AiSdlc

/-- C1: for every action, the stage sequence the pipeline state machine
realizes (all prior stages completing) is exactly the one given by the
Transition Table: `analyze_requirements -> [Requirement]`,
`generate_code -> [Requirement, Code]`,
`generate_tests -> [Requirement, Test]`,
`full_pipeline -> [Requirement, Code, Test]`. -/
theorem realizedStages_matches_transition_table :
    realizedStages .analyze_requirements = [.requirement] ∧
    realizedStages .generate_code = [.requirement, .code] ∧
    realizedStages .generate_tests = [.requirement, .test] ∧
    realizedStages .full_pipeline = [.requirement, .code, .test] := by
  decide

/-- C2 counterexample: on the selection {code, test} (req not selected)
the two `runPipeline` action mappings disagree: `part_000` yields
`full_pipeline` while `part_001` yields `analyze_requirements`. -/
theorem actionOf_disagree_on_code_test :
    actionOf000 (selOf false true true) = "full_pipeline" ∧
    actionOf001 (selOf false true true) = "analyze_requirements" ∧
    actionOf000 (selOf false true true) ≠ actionOf001 (selOf false true true) := by
  decide

/-- C2 (amended): the two action mappings agree on every subset of
{req, code, test} except the one selecting code and test without req. -/
theorem actionOf_agree_except_code_test :
    ∀ r c t : Bool, ¬(r = false ∧ c = true ∧ t = true) →
      actionOf000 (selOf r c t) = actionOf001 (selOf r c t) := by
  decide

theorem actionOf_agree_except_code_test_spot :
    ¬((true : Bool) = false ∧ (true : Bool) = true ∧ (true : Bool) = true) ∧
      actionOf000 (selOf true true true) = actionOf001 (selOf true true true) :=
  ⟨by decide, actionOf_agree_except_code_test true true true (by decide)⟩

/-- C3: for every non-empty selection, both `runPipeline` mappings
produce one of the four backend Action values; selecting all three
agents yields `full_pipeline`, and selecting req and test without code
yields `generate_tests`. -/
theorem actionOf_in_action_set (r c t : Bool) (h : (r || c || t) = true) :
    (actionOf000 (selOf r c t) ∈ actionStrings ∧
      actionOf001 (selOf r c t) ∈ actionStrings) ∧
    (actionOf000 (selOf true true true) = "full_pipeline" ∧
      actionOf001 (selOf true true true) = "full_pipeline") ∧
    (actionOf000 (selOf true false true) = "generate_tests" ∧
      actionOf001 (selOf true false true) = "generate_tests") := by
  revert h
  revert r c t
  decide

theorem actionOf_in_action_set_spot :
    ((true : Bool) || false || false) = true ∧
      actionOf000 (selOf true false false) ∈ actionStrings :=
  ⟨by decide, (actionOf_in_action_set true false false (by decide)).1.1⟩

/-- C5: if neither a ticket id nor a repository URL is given, or the
agent selection is empty, `runPipeline` reports a validation error and
returns before any API call: no analyze request is made, no view state
is created, and the Run button is disabled under the same condition. -/
theorem runPipeline000_validation_guard (jiraId repoUrl : String)
    (actions : List String)
    (h : (jiraId = "" ∧ repoUrl = "") ∨ actions = []) :
    (runPipeline000 jiraId repoUrl actions).apiCalled = false ∧
    (runPipeline000 jiraId repoUrl actions).apiAction = none ∧
    (runPipeline000 jiraId repoUrl actions).view = none ∧
    (runPipeline000 jiraId repoUrl actions).toast =
      some ("Please provide input and select at least one agent", "error") ∧
    runButtonDisabled jiraId repoUrl actions = true := by
  rcases h with ⟨h1, h2⟩ | h3 <;> subst_vars <;>
    simp [runPipeline000, runButtonDisabled]

theorem runPipeline000_validation_guard_witness :
    ((("" : String) = "" ∧ ("" : String) = "") ∨ (["req"] : List String) = []) ∧
      (runPipeline000 "" "" ["req"]).apiCalled = false :=
  ⟨Or.inl ⟨rfl, rfl⟩,
    (runPipeline000_validation_guard "" "" ["req"] (Or.inl ⟨rfl, rfl⟩)).1⟩

theorem wfEvents_cons (now : String) (a : AgentRec) (rest : List AgentRec) :
    wfEvents now (a :: rest) =
      { event := "node_start", node := a.agent_name,
        timestamp := a.started_at.getD now } ::
      { event := if a.status = "completed" then "node_complete" else "node_error",
        node := a.agent_name, timestamp := a.completed_at.getD now } ::
      wfEvents now rest := by
  simp [wfEvents]

theorem wfEvents_takeWhile_nil (now : String) (agents : List AgentRec) :
    (wfEvents now agents).takeWhile (fun x => !isNodeStart x) = [] := by
  cases agents with
  | nil => rfl
  | cons a rest =>
    rw [wfEvents_cons]
    simp [List.takeWhile_cons, isNodeStart]

/-- C6: in the event list synthesized for the Workflow tab, every
`node_start` for a stage is followed, before any other `node_start`, by
exactly one `node_complete` or `node_error` event, and that event is for
the same stage. -/
theorem wfEvents_start_matched (now : String) (agents : List AgentRec)
    (i : Nat) (e : WfEvent)
    (hget : (wfEvents now agents).get? i = some e)
    (hstart : isNodeStart e = true) :
    ((((wfEvents now agents).drop (i + 1)).takeWhile
        (fun x => !isNodeStart x)).filter isNodeEnd).map (fun x => x.node) =
      [e.node] := by
  induction agents generalizing i with
  | nil => simp [wfEvents] at hget
  | cons a rest ih =>
    rw [wfEvents_cons] at hget ⊢
    cases i with
    | zero =>
      simp only [List.get?] at hget
      injection hget with hget
      subst hget
      simp only [List.drop_succ_cons, List.drop_zero]
      rw [List.takeWhile_cons]
      have hnotstart :
          (!isNodeStart
            { event := if a.status = "completed" then "node_complete" else "node_error",
              node := a.agent_name, timestamp := a.completed_at.getD now }) = true := by
        by_cases hc : a.status = "completed" <;> simp [isNodeStart, hc]
      rw [if_pos hnotstart, wfEvents_takeWhile_nil]
      have hend :
          isNodeEnd
            { event := if a.status = "completed" then "node_complete" else "node_error",
              node := a.agent_name, timestamp := a.completed_at.getD now } = true := by
        by_cases hc : a.status = "completed" <;> simp [isNodeEnd, hc]
      simp [List.filter_cons, hend]
    | succ i =>
      cases i with
      | zero =>
        simp only [List.get?] at hget
        injection hget with hget
        subst hget
        by_cases hc : a.status = "completed" <;> simp [isNodeStart, hc] at hstart
      | succ n =>
        simp only [List.get?] at hget
        simpa using ih n hget

theorem wfEvents_start_matched_witness :
    (wfEvents "t" [⟨"req_agent", "completed", none, none⟩]).get? 0 =
        some { event := "node_start", node := "req_agent", timestamp := "t" } ∧
      isNodeStart { event := "node_start", node := "req_agent", timestamp := "t" } = true ∧
      ((((wfEvents "t" [⟨"req_agent", "completed", none, none⟩]).drop 1).takeWhile
          (fun x => !isNodeStart x)).filter isNodeEnd).map (fun x => x.node) =
        ["req_agent"] :=
  ⟨by decide, by decide,
    wfEvents_start_matched "t" [⟨"req_agent", "completed", none, none⟩] 0
      { event := "node_start", node := "req_agent", timestamp := "t" }
      (by decide) (by decide)⟩

theorem length_filter_status (ccs : List CodeChange) (ts : List TestItem)
    (l : List String) :
    (l.filter (fun k => entryStatus ccs ts k = "fully_covered")).length +
      (l.filter (fun k => entryStatus ccs ts k = "partially_covered")).length +
      (l.filter (fun k => entryStatus ccs ts k = "uncovered")).length =
      l.length := by
  induction l with
  | nil => rfl
  | cons k ks ih =>
    cases hc : reqHasCode ccs k <;> cases ht : reqHasTests ts k
    · have hs : entryStatus ccs ts k = "uncovered" := by
        simp [entryStatus, hc, ht]
      simp [List.filter_cons, hs]
      omega
    · have hs : entryStatus ccs ts k = "partially_covered" := by
        simp [entryStatus, hc, ht]
      simp [List.filter_cons, hs]
      omega
    · have hs : entryStatus ccs ts k = "partially_covered" := by
        simp [entryStatus, hc, ht]
      simp [List.filter_cons, hs]
      omega
    · have hs : entryStatus ccs ts k = "fully_covered" := by
        simp [entryStatus, hc, ht]
      simp [List.filter_cons, hs]
      omega

/-- C10: every traceability entry is `fully_covered` iff it has both a
linked code change and a linked test, `uncovered` iff it has neither,
`partially_covered` otherwise; the three counts add up to the total and
the full-coverage percentage never exceeds the partial one. -/
theorem traceability_status_and_stats (reqs : List ReqItem)
    (ccs : List CodeChange) (ts : List TestItem) (k : String)
    (_hk : k ∈ traceEntries reqs) :
    (entryStatus ccs ts k = "fully_covered" ↔
      (reqHasCode ccs k = true ∧ reqHasTests ts k = true)) ∧
    (entryStatus ccs ts k = "uncovered" ↔
      (reqHasCode ccs k = false ∧ reqHasTests ts k = false)) ∧
    (entryStatus ccs ts k = "partially_covered" ↔
      ((reqHasCode ccs k = true ∨ reqHasTests ts k = true) ∧
        ¬(reqHasCode ccs k = true ∧ reqHasTests ts k = true))) ∧
    countStatus reqs ccs ts "fully_covered" +
        countStatus reqs ccs ts "partially_covered" +
        countStatus reqs ccs ts "uncovered" = (traceEntries reqs).length ∧
    coveragePercent reqs ccs ts ≤ partialPercent reqs ccs ts := by
  refine ⟨?_, ?_, ?_, ?_, ?_⟩
  · cases hc : reqHasCode ccs k <;> cases ht : reqHasTests ts k <;>
      simp [entryStatus, hc, ht]
  · cases hc : reqHasCode ccs k <;> cases ht : reqHasTests ts k <;>
      simp [entryStatus, hc, ht]
  · cases hc : reqHasCode ccs k <;> cases ht : reqHasTests ts k <;>
      simp [entryStatus, hc, ht]
  · exact length_filter_status ccs ts (traceEntries reqs)
  · by_cases h : (traceEntries reqs).length > 0
    · simp only [coveragePercent, partialPercent, if_pos h, jsRoundPct]
      apply Nat.div_le_div_right
      omega
    · simp only [coveragePercent, partialPercent, if_neg h]
      exact Nat.le_refl 0

theorem traceability_status_and_stats_witness :
    ("R1" ∈ traceEntries [⟨"R1", "d", "high"⟩]) ∧
      (entryStatus [⟨some ["R1"]⟩] [⟨some "R1"⟩] "R1" = "fully_covered" ↔
        (reqHasCode [⟨some ["R1"]⟩] "R1" = true ∧
          reqHasTests [⟨some "R1"⟩] "R1" = true)) :=
  ⟨by decide,
    (traceability_status_and_stats [⟨"R1", "d", "high"⟩] [⟨some ["R1"]⟩]
      [⟨some "R1"⟩] "R1" (by decide)).1⟩

theorem storeLookup_save (store : Store) (rid : String) (st : RunState) :
    storeLookup (storeSave store rid st) rid = some st := by
  simp [storeSave, storeLookup]

/-- C7: a second `execute` on a `runId` whose RunState is terminal
returns the same RunState (hence the same StageResults), leaves the
store unchanged, and invokes no stage. -/
theorem execute_idempotent_on_terminal (cap : Stage → Except String String)
    (store : Store) (ticket : String) (a : Action) (rid : String)
    (hterm : (executeModel cap store ticket a rid).1.status ≠ .running) :
    executeModel cap (executeModel cap store ticket a rid).2.1 ticket a rid =
      ((executeModel cap store ticket a rid).1,
        (executeModel cap store ticket a rid).2.1, []) := by
  unfold executeModel at *
  cases hlk : storeLookup store rid with
  | none =>
    simp only [hlk] at hterm ⊢
    rw [storeLookup_save]
    simp only [if_neg hterm]
  | some st =>
    simp only [hlk] at hterm ⊢
    by_cases hrun : st.status = .running
    · simp only [if_pos hrun] at hterm ⊢
      rw [storeLookup_save]
      simp only [if_neg hterm]
    · simp only [if_neg hrun] at hterm ⊢
      rw [hlk]
      simp only [if_neg hrun]

theorem execute_idempotent_on_terminal_witness :
    (executeModel (fun _ => Except.ok "p") [] "T-1" .full_pipeline "r1").1.status ≠
        .running ∧
      executeModel (fun _ => Except.ok "p")
          (executeModel (fun _ => Except.ok "p") [] "T-1" .full_pipeline "r1").2.1
          "T-1" .full_pipeline "r1" =
        ((executeModel (fun _ => Except.ok "p") [] "T-1" .full_pipeline "r1").1,
          (executeModel (fun _ => Except.ok "p") [] "T-1" .full_pipeline "r1").2.1,
          []) :=
  ⟨by decide,
    execute_idempotent_on_terminal (fun _ => Except.ok "p") [] "T-1"
      .full_pipeline "r1" (by decide)⟩

/-- C8: of two simultaneous `execute` calls racing for the lock of the
same non-terminal run, the one whose acquisition lands first proceeds
and the other receives ConcurrentRunError; in no lock state can both
acquisitions of a run identifier succeed (single writer per run). -/
theorem concurrent_execute_single_writer (locks : List String) (rid : String)
    (hfree : locks.contains rid = false) :
    (twoSimultaneous locks rid).1 = .proceeds ∧
    (twoSimultaneous locks rid).2 = .concurrentRunError ∧
    ∀ locks2 : List String,
      ¬((tryStart locks2 rid).1 = .proceeds ∧
        (tryStart (tryStart locks2 rid).2 rid).1 = .proceeds) := by
  refine ⟨?_, ?_, ?_⟩
  · simp only [twoSimultaneous, tryStart, acquireLock, hfree]
  · simp only [twoSimultaneous, tryStart, acquireLock, hfree]
    simp [List.contains_cons]
  · intro locks2
    cases h2 : locks2.contains rid with
    | true => simp only [tryStart, acquireLock, h2]; simp
    | false =>
      simp only [tryStart, acquireLock, h2]
      simp [List.contains_cons]

theorem concurrent_execute_single_writer_witness :
    ([] : List String).contains "r1" = false ∧
      (twoSimultaneous [] "r1").1 = .proceeds ∧
      (twoSimultaneous [] "r1").2 = .concurrentRunError :=
  ⟨by decide,
    (concurrent_execute_single_writer [] "r1" (by decide)).1,
    (concurrent_execute_single_writer [] "r1" (by decide)).2.1⟩

theorem splitLines_eq_splitP (s : List Char) :
    splitLines s = (splitP s).1 ++ [(splitP s).2] := by
  induction s with
  | nil => rfl
  | cons c cs ih =>
    by_cases hc : c = '\n'
    · simp [splitLines, splitP, hc, ih]
    · cases hp : (splitP cs).1 with
      | nil => simp [splitLines, splitP, hc, ih, hp]
      | cons h t => simp [splitLines, splitP, hc, ih, hp]

theorem splitP_append (a b : List Char) :
    splitP (a ++ b) =
      ((splitP a).1 ++ (splitP ((splitP a).2 ++ b)).1,
        (splitP ((splitP a).2 ++ b)).2) := by
  induction a with
  | nil => simp [splitP]
  | cons c a' ih =>
    by_cases hc : c = '\n'
    · simp [splitP, hc, ih]
    · cases hp : (splitP a').1 with
      | nil =>
        cases hq : (splitP ((splitP a').2 ++ b)).1 with
        | nil => simp [splitP, hc, ih, hp, hq]
        | cons h2 t2 => simp [splitP, hc, ih, hp, hq]
      | cons h t => simp [splitP, hc, ih, hp]

theorem splitP_snd_no_nl (s : List Char) : '\n' ∉ (splitP s).2 := by
  induction s with
  | nil => simp [splitP]
  | cons c cs ih =>
    by_cases hc : c = '\n'
    · simp [splitP, hc, ih]
    · cases hp : (splitP cs).1 with
      | nil =>
        simp only [splitP, if_neg hc, hp]
        simp [hc, ih]
        exact fun he => hc he.symm
      | cons h t => simp [splitP, hc, ih, hp]

theorem splitP_fst_nil (s : List Char) (h : '\n' ∉ s) : (splitP s).1 = [] := by
  induction s with
  | nil => rfl
  | cons c cs ih =>
    have hc : ¬ c = '\n' := fun he => h (he ▸ List.mem_cons_self c cs)
    have ihcs : (splitP cs).1 = [] := ih (fun hm => h (List.mem_cons_of_mem c hm))
    simp [splitP, hc, ihcs]

theorem sseLines_map_fst (ls : List (List Char)) :
    ∀ cur, (sseLines cur ls).map Prod.fst = ls.filterMap dataLine := by
  induction ls with
  | nil => intro cur; rfl
  | cons l ls ih =>
    intro cur
    by_cases h1 : ['e', 'v', 'e', 'n', 't', ':', ' '] <+: l
    · simp [sseLines, sseLine, dataLine, h1, ih]
    · by_cases h2 : ['d', 'a', 't', 'a', ':', ' '] <+: l
      · simp [sseLines, sseLine, dataLine, h1, h2, ih]
      · simp [sseLines, sseLine, dataLine, h1, h2, ih]

theorem sseChunk_eq (buffer chunk : List Char) :
    sseChunk buffer chunk =
      ((splitP (buffer ++ chunk)).2,
        sseLines none (splitP (buffer ++ chunk)).1) := by
  unfold sseChunk
  rw [splitLines_eq_splitP]
  simp

theorem sseRunFrom_fst (chunks : List (List Char)) :
    ∀ buffer : List Char, '\n' ∉ buffer →
      (sseRunFrom buffer chunks).map Prod.fst =
        ((splitP (buffer ++ chunks.flatten)).1).filterMap dataLine := by
  induction chunks with
  | nil =>
    intro buffer hbuf
    simp [sseRunFrom, splitP_fst_nil buffer hbuf]
  | cons ch rest ih =>
    intro buffer _hbuf
    simp only [sseRunFrom, sseChunk_eq, List.map_append]
    rw [sseLines_map_fst, ih _ (splitP_snd_no_nl (buffer ++ ch)),
      ← List.filterMap_append, List.flatten_cons, ← List.append_assoc,
      splitP_append (buffer ++ ch) rest.flatten]

/-- C4 (amended): for every chunking of the response body, the ordered
sequence of data payloads `analyzeStream` delivers is the same — each
complete `data:` line of the body is delivered exactly once, in body
order — and equals the single-chunk delivery.  (The event type paired
with a payload is not chunk-independent; see the counterexample.) -/
theorem sse_data_delivery_chunk_independent (chunks : List (List Char)) :
    (sseRun chunks).map Prod.fst =
      ((splitLines chunks.flatten).dropLast).filterMap dataLine ∧
    (sseRun chunks).map Prod.fst = (sseRun [chunks.flatten]).map Prod.fst := by
  have h1 := sseRunFrom_fst chunks [] (by simp)
  have h2 := sseRunFrom_fst [chunks.flatten] [] (by simp)
  constructor
  · rw [sseRun, h1]
    simp only [List.nil_append]
    rw [splitLines_eq_splitP]
    simp
  · rw [sseRun, sseRun, h1, h2]
    simp

/-- C4 counterexample: the same body split as one chunk or at the line
boundary produces different (data, event type) pair sequences —
`currentEvent` is reset at each chunk, so the split delivery loses the
event type. -/
theorem sse_pairs_depend_on_chunking :
    sseRun ["event: status\n".toList, "data: 1\n".toList] =
        [("1".toList, none)] ∧
      sseRun [("event: status\ndata: 1\n").toList] =
        [("1".toList, some "status".toList)] ∧
      sseRun ["event: status\n".toList, "data: 1\n".toList] ≠
        sseRun [("event: status\ndata: 1\n").toList] :=
  ⟨by decide, by decide, by decide⟩

/-! Generic helpers for the DiffViewer round trip. -/

theorem takeWhile_append_of_all {p : Char → Bool} (a z : List Char)
    (ha : ∀ c ∈ a, p c = true) :
    (a ++ z).takeWhile p = a ++ z.takeWhile p := by
  induction a with
  | nil => simp
  | cons c a ih =>
    have hc : p c = true := ha c (by simp)
    simp only [List.cons_append, List.takeWhile_cons, hc, if_true]
    rw [ih (fun d hd => ha d (by simp [hd]))]

theorem dropWhile_append_of_all {p : Char → Bool} (a z : List Char)
    (ha : ∀ c ∈ a, p c = true) :
    (a ++ z).dropWhile p = z.dropWhile p := by
  induction a with
  | nil => simp
  | cons c a ih =>
    have hc : p c = true := ha c (by simp)
    simp only [List.cons_append, List.dropWhile_cons, hc, if_true]
    exact ih (fun d hd => ha d (by simp [hd]))

theorem takeWhile_cons_neg {p : Char → Bool} (b : Char) (z : List Char)
    (hb : p b = false) : (b :: z).takeWhile p = [] := by
  simp [List.takeWhile_cons, hb]

theorem dropWhile_cons_neg {p : Char → Bool} (b : Char) (z : List Char)
    (hb : p b = false) : (b :: z).dropWhile p = b :: z := by
  simp [List.dropWhile_cons, hb]

theorem takeWhile_eq_self_of_all {p : Char → Bool} (a : List Char)
    (ha : ∀ c ∈ a, p c = true) : a.takeWhile p = a := by
  have := takeWhile_append_of_all a [] ha
  simpa using this

theorem digitsToNat_concat (xs : List Char) (c : Char) :
    digitsToNat (xs ++ [c]) = digitsToNat xs * 10 + (c.toNat - 48) := by
  simp [digitsToNat, List.foldl_append]

theorem char_digit_facts (d : Nat) (hd : d < 10) :
    (Char.ofNat (48 + d)).toNat = 48 + d ∧
      (Char.ofNat (48 + d)).isDigit = true ∧
      dotChar (Char.ofNat (48 + d)) = true ∧
      ¬ Char.ofNat (48 + d) = '\n' := by
  interval_cases d <;> refine ⟨by decide, by decide, by decide, by decide⟩

theorem digitsToNat_natDigitsAux :
    ∀ fuel n : Nat, n ≤ fuel → digitsToNat (natDigitsAux fuel n) = n := by
  intro fuel
  induction fuel with
  | zero =>
    intro n hn
    interval_cases n
    rfl
  | succ fuel ih =>
    intro n hn
    cases n with
    | zero => rfl
    | succ m =>
      have hdiv : (m + 1) / 10 ≤ fuel := by
        have := Nat.div_lt_self (Nat.succ_pos m) (by norm_num : 1 < 10)
        omega
      have hstep : natDigitsAux (fuel + 1) (m + 1) =
          natDigitsAux fuel ((m + 1) / 10) ++ [Char.ofNat (48 + (m + 1) % 10)] := rfl
      rw [hstep, digitsToNat_concat, ih _ hdiv,
        (char_digit_facts ((m + 1) % 10) (Nat.mod_lt _ (by norm_num))).1]
      omega

theorem digitsToNat_natToDigitChars (n : Nat) :
    digitsToNat (natToDigitChars n) = n := by
  by_cases h : n = 0
  · subst h; decide
  · simp only [natToDigitChars, if_neg h]
    exact digitsToNat_natDigitsAux n n le_rfl

theorem natDigitsAux_digits :
    ∀ fuel n : Nat, ∀ c ∈ natDigitsAux fuel n,
      c.isDigit = true ∧ dotChar c = true ∧ ¬ c = '\n' := by
  intro fuel
  induction fuel with
  | zero => intro n c hc; simp [natDigitsAux] at hc
  | succ fuel ih =>
    intro n c hc
    cases n with
    | zero => simp [natDigitsAux] at hc
    | succ m =>
      have hstep : natDigitsAux (fuel + 1) (m + 1) =
          natDigitsAux fuel ((m + 1) / 10) ++ [Char.ofNat (48 + (m + 1) % 10)] := rfl
      rw [hstep] at hc
      rcases List.mem_append.mp hc with hmem | hmem
      · exact ih _ c hmem
      · have hd := char_digit_facts ((m + 1) % 10) (Nat.mod_lt _ (by norm_num))
        have : c = Char.ofNat (48 + (m + 1) % 10) := by simpa using hmem
        subst this
        exact ⟨hd.2.1, hd.2.2.1, hd.2.2.2⟩

theorem natToDigitChars_digits (n : Nat) :
    ∀ c ∈ natToDigitChars n,
      c.isDigit = true ∧ dotChar c = true ∧ ¬ c = '\n' := by
  intro c hc
  by_cases h : n = 0
  · subst h
    simp only [natToDigitChars, if_pos rfl] at hc
    have : c = '0' := by simpa using hc
    subst this
    exact ⟨by decide, by decide, by decide⟩
  · simp only [natToDigitChars, if_neg h] at hc
    exact natDigitsAux_digits n n c hc

theorem natToDigitChars_ne_nil (n : Nat) : natToDigitChars n ≠ [] := by
  by_cases h : n = 0
  · subst h; decide
  · simp only [natToDigitChars, if_neg h]
    cases n with
    | zero => exact absurd rfl h
    | succ m =>
      have hstep : natDigitsAux (m + 1) (m + 1) =
          natDigitsAux m ((m + 1) / 10) ++ [Char.ofNat (48 + (m + 1) % 10)] := rfl
      rw [hstep]
      simp

theorem jsParseCount_pos (ds : List Char) : 1 ≤ jsParseCount ds := by
  unfold jsParseCount
  by_cases h : digitsToNat ds = 0
  · simp [h]
  · simp only [if_neg h]
    omega

theorem jsParseCount_natToDigitChars (n : Nat) (hn : 1 ≤ n) :
    jsParseCount (natToDigitChars n) = n := by
  unfold jsParseCount
  rw [digitsToNat_natToDigitChars, if_neg (by omega : ¬ n = 0)]

theorem dgValid_eq (r : List Char) (i : Nat) :
    dgValid r i = true ↔
      1 ≤ i ∧ " b/".toList.isPrefixOf (r.drop i) = true ∧ i + 3 < r.length := by
  simp [dgValid, and_assoc]

theorem lastValidFrom_some (r : List Char) :
    ∀ n i, lastValidFrom r n = some i →
      dgValid r i = true ∧ i ≤ n ∧
        ∀ j, i < j → j ≤ n → dgValid r j = false := by
  intro n
  induction n with
  | zero => intro i h; simp [lastValidFrom] at h
  | succ n ih =>
    intro i h
    cases hv : dgValid r (n + 1) with
    | true =>
      rw [lastValidFrom, if_pos hv] at h
      injection h with h
      subst h
      exact ⟨hv, le_rfl, fun j h1 h2 => absurd h1 (by omega)⟩
    | false =>
      rw [lastValidFrom, if_neg (by simp [hv])] at h
      obtain ⟨h1, h2, h3⟩ := ih i h
      refine ⟨h1, by omega, fun j hj1 hj2 => ?_⟩
      by_cases hje : j = n + 1
      · subst hje; exact hv
      · exact h3 j hj1 (by omega)

theorem lastValidFrom_eq_of_max (r : List Char) (m : Nat) :
    ∀ n, m ≤ n → dgValid r m = true →
      (∀ j, m < j → j ≤ n → dgValid r j = false) →
      lastValidFrom r n = some m := by
  intro n
  induction n with
  | zero =>
    intro hmn hv _
    interval_cases m
    rw [dgValid_eq] at hv
    omega
  | succ n ih =>
    intro hmn hv hmax
    by_cases he : m = n + 1
    · subst he
      rw [lastValidFrom, if_pos hv]
    · have hfalse : dgValid r (n + 1) = false := hmax (n + 1) (by omega) le_rfl
      rw [lastValidFrom, if_neg (by simp [hfalse])]
      exact ih (by omega) hv (fun j h1 h2 => hmax j h1 (by omega))

theorem dgSplit_eq_some (r x y : List Char) (h : dgSplit r = some (x, y)) :
    r = x ++ " b/".toList ++ y ∧ x ≠ [] ∧ y ≠ [] ∧ x.length + 3 + y.length = r.length ∧
      ∀ k < y.length, " b/".toList.isPrefixOf (y.drop k) = true → y.length ≤ k + 3 := by
  unfold dgSplit at h
  cases hl : lastValidFrom r r.length with
  | none => rw [hl] at h; exact absurd h (by simp)
  | some i =>
    rw [hl] at h
    injection h with h
    obtain ⟨hx, hy⟩ := Prod.mk.injEq .. ▸ h
    obtain ⟨hvalid, hle, hmax⟩ := lastValidFrom_some r r.length i hl
    rw [dgValid_eq] at hvalid
    obtain ⟨hi1, hpre, hilen⟩ := hvalid
    have hsep : " b/".toList <+: r.drop i := List.isPrefixOf_iff_prefix.mp hpre
    obtain ⟨t, ht⟩ := hsep
    have htt : t = r.drop (i + 3) := by
      have := congrArg (List.drop 3) ht
      rw [List.drop_left' (by decide), List.drop_drop] at this
      simpa using this
    have hrec : r = x ++ " b/".toList ++ y := by
      subst hx hy
      conv_lhs => rw [← List.take_append_drop i r]
      rw [← ht, htt, List.append_assoc]
    have hxlen : x.length = i := by
      subst hx
      rw [List.length_take]
      omega
    have hxne : x ≠ [] := by
      intro hxe
      rw [hxe] at hxlen
      simp at hxlen
      omega
    have hylen : y.length = r.length - (i + 3) := by
      subst hy
      simp [List.length_drop]
    have hyne : y ≠ [] := by
      intro hye
      rw [hye] at hylen
      simp at hylen
      omega
    refine ⟨hrec, hxne, hyne, by omega, fun k hk hkpre => ?_⟩
    by_contra hcon
    have hdropk : r.drop (i + 3 + k) = y.drop k := by
      subst hy
      rw [List.drop_drop]
    have hjv : dgValid r (i + 3 + k) = true := by
      rw [dgValid_eq]
      refine ⟨by omega, by rw [hdropk]; exact hkpre, by omega⟩
    have := hmax (i + 3 + k) (by omega) (by omega)
    rw [this] at hjv
    exact absurd hjv (by simp)

theorem dgSplit_of_serialized (x y : List Char) (hx : x ≠ []) (hy : y ≠ [])
    (hns : ∀ k < y.length, " b/".toList.isPrefixOf (y.drop k) = true →
      y.length ≤ k + 3) :
    dgSplit (x ++ " b/".toList ++ y) = some (x, y) := by
  have hxlen : 1 ≤ x.length := by
    cases x with
    | nil => exact absurd rfl hx
    | cons a as => simp
  have hylen : 1 ≤ y.length := by
    cases y with
    | nil => exact absurd rfl hy
    | cons a as => simp
  have hrlen : (x ++ " b/".toList ++ y).length = x.length + 3 + y.length := by
    simp
    omega
  have hdropm : (x ++ " b/".toList ++ y).drop x.length = " b/".toList ++ y := by
    rw [List.append_assoc, List.drop_left]
  have hvm : dgValid (x ++ " b/".toList ++ y) x.length = true := by
    rw [dgValid_eq, hdropm]
    refine ⟨hxlen, List.isPrefixOf_iff_prefix.mpr (List.prefix_append _ _), by omega⟩
  have hmax : ∀ j, x.length < j → j ≤ (x ++ " b/".toList ++ y).length →
      dgValid (x ++ " b/".toList ++ y) j = false := by
    intro j hj1 hj2
    by_contra hcon
    have hjv : dgValid (x ++ " b/".toList ++ y) j = true := by
      revert hcon
      cases dgValid (x ++ " b/".toList ++ y) j <;> simp
    rw [dgValid_eq] at hjv
    obtain ⟨_, hjpre, hjlen⟩ := hjv
    by_cases hc1 : j = x.length + 1
    · subst hc1
      rw [show x.length + 1 = x.length + 1 from rfl] at hjpre
      have : (x ++ " b/".toList ++ y).drop (x.length + 1) = 'b' :: '/' :: y := by
        rw [List.append_assoc, List.drop_append]
        rfl
      rw [this] at hjpre
      simp [List.isPrefixOf] at hjpre
    · by_cases hc2 : j = x.length + 2
      · subst hc2
        have : (x ++ " b/".toList ++ y).drop (x.length + 2) = '/' :: y := by
          rw [List.append_assoc, List.drop_append]
          rfl
        rw [this] at hjpre
        simp [List.isPrefixOf] at hjpre
      · have hge : x.length + 3 ≤ j := by omega
        have hdropj : (x ++ " b/".toList ++ y).drop j = y.drop (j - x.length - 3) := by
          have hj3 : j = (x ++ " b/".toList).length + (j - x.length - 3) := by
            simp
            omega
          conv_lhs => rw [List.append_assoc, ← List.append_assoc, hj3]
          rw [List.drop_append]
        rw [hdropj] at hjpre
        have hklt : j - x.length - 3 < y.length := by
          rw [hrlen] at hjlen
          omega
        have := hns (j - x.length - 3) hklt hjpre
        rw [hrlen] at hjlen
        omega
  have hlast := lastValidFrom_eq_of_max (x ++ " b/".toList ++ y) x.length
    (x ++ " b/".toList ++ y).length (by rw [hrlen]; omega) hvm hmax
  unfold dgSplit
  rw [hlast]
  have h1 : (x ++ " b/".toList ++ y).take x.length = x := by
    rw [List.append_assoc, List.take_left]
  have h2 : (x ++ " b/".toList ++ y).drop (x.length + 3) = y := by
    rw [List.append_assoc, ← List.append_assoc]
    have hlen3 : x.length + 3 = (x ++ " b/".toList).length := by simp
    rw [hlen3, List.drop_left]
  simp [h1, h2]

theorem findDG_of_serialized (old newp : List Char)
    (hold : goodPath old) (hnew : goodPath newp) (hns : noSubTail newp) :
    findDG ("diff --git a/".toList ++ old ++ " b/".toList ++ newp) =
      some (old, newp) := by
  have hassoc : "diff --git a/".toList ++ old ++ " b/".toList ++ newp =
      "diff --git a/".toList ++ (old ++ " b/".toList ++ newp) := by
    simp [List.append_assoc]
  have hpre : "diff --git a/".toList.isPrefixOf
      ("diff --git a/".toList ++ old ++ " b/".toList ++ newp) = true := by
    rw [hassoc]
    exact List.isPrefixOf_iff_prefix.mpr (List.prefix_append _ _)
  have hdrop : ("diff --git a/".toList ++ old ++ " b/".toList ++ newp).drop 13 =
      old ++ " b/".toList ++ newp := by
    rw [hassoc]
    exact List.drop_left' (by decide)
  have hdots : ∀ c ∈ old ++ " b/".toList ++ newp, dotChar c = true := by
    intro c hc
    rcases List.mem_append.mp hc with hc1 | hc2
    · rcases List.mem_append.mp hc1 with hc3 | hc4
      · exact hold.2 c hc3
      · have hsep : ∀ d ∈ " b/".toList, dotChar d = true := by decide
        exact hsep c hc4
    · exact hnew.2 c hc2
  have htake : (old ++ " b/".toList ++ newp).takeWhile dotChar =
      old ++ " b/".toList ++ newp := takeWhile_eq_self_of_all _ hdots
  have hsplit := dgSplit_of_serialized old newp hold.1 hnew.1 hns
  cases hL : "diff --git a/".toList ++ old ++ " b/".toList ++ newp with
  | nil =>
    rw [hL] at hpre
    simp [List.isPrefixOf] at hpre
  | cons c rest =>
    rw [hL] at hpre hdrop
    rw [findDG, if_pos hpre, hdrop, htake, hsplit]

theorem findDG_good : ∀ l x y : List Char,
    findDG l = some (x, y) → goodPath x ∧ goodPath y ∧ noSubTail y := by
  intro l
  induction l with
  | nil => intro x y h; simp [findDG] at h
  | cons c rest ih =>
    intro x y h
    rw [findDG] at h
    by_cases hp : "diff --git a/".toList.isPrefixOf (c :: rest) = true
    · rw [if_pos hp] at h
      cases hsp : dgSplit (((c :: rest).drop 13).takeWhile dotChar) with
      | none => rw [hsp] at h; exact ih x y h
      | some xy =>
        rw [hsp] at h
        cases xy with
        | mk a b =>
          injection h with h
          rw [h] at hsp
          obtain ⟨hrec, hxne, hyne, _, hmax⟩ :=
            dgSplit_eq_some (((c :: rest).drop 13).takeWhile dotChar) x y hsp
          have hmemdot : ∀ d ∈ (((c :: rest).drop 13).takeWhile dotChar),
              dotChar d = true := fun d hd => List.mem_takeWhile_imp hd
          refine ⟨⟨hxne, fun d hd => ?_⟩, ⟨hyne, fun d hd => ?_⟩, hmax⟩
          · exact hmemdot d (by rw [hrec]; exact List.mem_append_left _ (List.mem_append_left _ hd))
          · exact hmemdot d (by rw [hrec]; exact List.mem_append_right _ hd)
    · rw [if_neg hp] at h
      exact ih x y h

theorem unknown_path_good : goodPath "unknown".toList ∧ noSubTail "unknown".toList := by
  refine ⟨⟨by decide, by decide⟩, ?_⟩
  unfold noSubTail
  decide

theorem natToDigitChars_isEmpty (n : Nat) : (natToDigitChars n).isEmpty = false := by
  cases h : natToDigitChars n with
  | nil => exact absurd h (natToDigitChars_ne_nil n)
  | cons a t => rfl

theorem scanHunkAt_canonical (A B C D : List Char)
    (hA : ∀ c ∈ A, Char.isDigit c = true) (hB : ∀ c ∈ B, Char.isDigit c = true)
    (hC : ∀ c ∈ C, Char.isDigit c = true) (hD : ∀ c ∈ D, Char.isDigit c = true)
    (hAe : A.isEmpty = false) (hCe : C.isEmpty = false) :
    scanHunkAt ('@' :: '@' :: ' ' :: '-' ::
      (A ++ ',' :: (B ++ ' ' :: '+' :: (C ++ ',' :: (D ++ [' ', '@', '@']))))) =
      some (A, B, C, D, []) := by
  have hcomma : Char.isDigit ',' = false := by decide
  have hspace : Char.isDigit ' ' = false := by decide
  have hpre1 : "@@ -".toList.isPrefixOf ('@' :: '@' :: ' ' :: '-' ::
      (A ++ ',' :: (B ++ ' ' :: '+' :: (C ++ ',' :: (D ++ [' ', '@', '@']))))) = true := by
    simp [List.isPrefixOf]
  have htakeA : (A ++ ',' :: (B ++ ' ' :: '+' :: (C ++ ',' :: (D ++ [' ', '@', '@'])))).takeWhile Char.isDigit = A := by
    rw [takeWhile_append_of_all _ _ hA, takeWhile_cons_neg _ _ hcomma, List.append_nil]
  have hdropA : (A ++ ',' :: (B ++ ' ' :: '+' :: (C ++ ',' :: (D ++ [' ', '@', '@'])))).dropWhile Char.isDigit =
      ',' :: (B ++ ' ' :: '+' :: (C ++ ',' :: (D ++ [' ', '@', '@']))) := by
    rw [dropWhile_append_of_all _ _ hA, dropWhile_cons_neg _ _ hcomma]
  have htakeB : (B ++ ' ' :: '+' :: (C ++ ',' :: (D ++ [' ', '@', '@']))).takeWhile Char.isDigit = B := by
    rw [takeWhile_append_of_all _ _ hB, takeWhile_cons_neg _ _ hspace, List.append_nil]
  have hdropB : (B ++ ' ' :: '+' :: (C ++ ',' :: (D ++ [' ', '@', '@']))).dropWhile Char.isDigit =
      ' ' :: '+' :: (C ++ ',' :: (D ++ [' ', '@', '@'])) := by
    rw [dropWhile_append_of_all _ _ hB, dropWhile_cons_neg _ _ hspace]
  have hpre2 : " +".toList.isPrefixOf (' ' :: '+' :: (C ++ ',' :: (D ++ [' ', '@', '@']))) = true := by
    simp [List.isPrefixOf]
  have htakeC : (C ++ ',' :: (D ++ [' ', '@', '@'])).takeWhile Char.isDigit = C := by
    rw [takeWhile_append_of_all _ _ hC, takeWhile_cons_neg _ _ hcomma, List.append_nil]
  have hdropC : (C ++ ',' :: (D ++ [' ', '@', '@'])).dropWhile Char.isDigit =
      ',' :: (D ++ [' ', '@', '@']) := by
    rw [dropWhile_append_of_all _ _ hC, dropWhile_cons_neg _ _ hcomma]
  have htakeD : (D ++ [' ', '@', '@']).takeWhile Char.isDigit = D := by
    rw [takeWhile_append_of_all _ _ hD, takeWhile_cons_neg _ _ hspace, List.append_nil]
  have hdropD : (D ++ [' ', '@', '@']).dropWhile Char.isDigit = [' ', '@', '@'] := by
    rw [dropWhile_append_of_all _ _ hD, dropWhile_cons_neg _ _ hspace]
  have hpre3 : " @@".toList.isPrefixOf ([' ', '@', '@'] : List Char) = true := by
    decide
  simp only [scanHunkAt, List.drop_succ_cons, List.drop_zero, hpre1, if_true,
    htakeA, hdropA, hAe, Bool.false_eq_true, if_false, List.head?_cons,
    Option.some.injEq, if_pos, htakeB, hdropB, hpre2, List.drop, htakeC,
    hdropC, hCe, htakeD, hdropD, hpre3]
  simp

theorem findHunk_head (c : Char) (r : List Char)
    (m : List Char × List Char × List Char × List Char × List Char)
    (h : scanHunkAt (c :: r) = some m) : findHunk (c :: r) = some m := by
  rw [findHunk, h]

theorem hunkHeaderText_eq (h : Hunk) (hh : h.header = []) :
    hunkHeaderText h = '@' :: '@' :: ' ' :: '-' ::
      (natToDigitChars h.oldStart ++ ',' ::
        (natToDigitChars h.oldCount ++ ' ' :: '+' ::
          (natToDigitChars h.newStart ++ ',' ::
            (natToDigitChars h.newCount ++ [' ', '@', '@'])))) := by
  have l1 : "@@ -".toList = ['@', '@', ' ', '-'] := rfl
  have l2 : " +".toList = [' ', '+'] := rfl
  have l3 : " @@".toList = [' ', '@', '@'] := rfl
  simp [hunkHeaderText, hh, l1, l2, l3, List.append_assoc]

theorem findHunk_serialized (h : Hunk) (hh : h.header = []) :
    findHunk (hunkHeaderText h) =
      some (natToDigitChars h.oldStart, natToDigitChars h.oldCount,
        natToDigitChars h.newStart, natToDigitChars h.newCount, []) := by
  rw [hunkHeaderText_eq h hh]
  apply findHunk_head
  apply scanHunkAt_canonical
  · exact fun c hc => (natToDigitChars_digits _ c hc).1
  · exact fun c hc => (natToDigitChars_digits _ c hc).1
  · exact fun c hc => (natToDigitChars_digits _ c hc).1
  · exact fun c hc => (natToDigitChars_digits _ c hc).1
  · exact natToDigitChars_isEmpty _
  · exact natToDigitChars_isEmpty _

theorem not_diffgit_hunkHeader (h : Hunk) (hh : h.header = []) :
    "diff --git".toList.isPrefixOf (hunkHeaderText h) = false := by
  rw [hunkHeaderText_eq h hh]
  have hb : ('d' == '@') = false := by decide
  have hlit : "diff --git".toList = 'd' :: "iff --git".toList := rfl
  rw [hlit, List.isPrefixOf_cons₂, hb]
  rfl

theorem hunk_prefix_hunkHeader (h : Hunk) (hh : h.header = []) :
    "@@".toList.isPrefixOf (hunkHeaderText h) = true := by
  rw [hunkHeaderText_eq h hh]
  simp [List.isPrefixOf]

theorem lineText_eq (dl : DiffLineRec) :
    lineText dl = (match dl.typ with
      | LineType.add => '+'
      | LineType.del => '-'
      | LineType.context => ' ') :: dl.content := by
  cases dl with
  | mk content typ => cases typ <;> rfl

theorem not_diffgit_lineText (dl : DiffLineRec) :
    "diff --git".toList.isPrefixOf (lineText dl) = false := by
  rw [lineText_eq]
  have hlit : "diff --git".toList = 'd' :: "iff --git".toList := rfl
  cases dl.typ <;>
    (rw [hlit, List.isPrefixOf_cons₂]
     simp)

theorem not_hunk_lineText (dl : DiffLineRec) :
    "@@".toList.isPrefixOf (lineText dl) = false := by
  rw [lineText_eq]
  have hlit : "@@".toList = '@' :: "@".toList := rfl
  cases dl.typ <;>
    (rw [hlit, List.isPrefixOf_cons₂]
     simp)

theorem diffgit_prefix_fileHeader (f : DiffFile) :
    "diff --git".toList.isPrefixOf (fileHeaderText f) = true := by
  have hsplit : fileHeaderText f =
      "diff --git".toList ++ (" a/".toList ++ f.oldPath ++ " b/".toList ++ f.newPath) := by
    simp [fileHeaderText, List.append_assoc]
  rw [hsplit]
  exact List.isPrefixOf_iff_prefix.mpr (List.prefix_append _ _)

theorem not_diffgit_nil : "diff --git".toList.isPrefixOf ([] : List Char) = false := by
  decide

theorem not_hunk_nil : "@@".toList.isPrefixOf ([] : List Char) = false := by
  decide

theorem pushLine_append_last (hs : List Hunk) (h : Hunk) (dl : DiffLineRec) :
    pushLine (hs ++ [h]) dl = hs ++ [{ h with lines := h.lines ++ [dl] }] := by
  induction hs with
  | nil => rfl
  | cons a hs ih =>
    cases hs with
    | nil => rfl
    | cons b hs2 =>
      calc pushLine ((a :: b :: hs2) ++ [h]) dl
          = a :: pushLine ((b :: hs2) ++ [h]) dl := rfl
        _ = a :: ((b :: hs2) ++ [{ h with lines := h.lines ++ [dl] }]) := by rw [ih]
        _ = (a :: b :: hs2) ++ [{ h with lines := h.lines ++ [dl] }] := rfl

theorem countAdds_append (hs1 hs2 : List Hunk) :
    countAdds (hs1 ++ hs2) = countAdds hs1 + countAdds hs2 := by
  simp [countAdds]

theorem countDels_append (hs1 hs2 : List Hunk) :
    countDels (hs1 ++ hs2) = countDels hs1 + countDels hs2 := by
  simp [countDels]

theorem countAdds_single_push (h : Hunk) (dl : DiffLineRec) :
    countAdds [{ h with lines := h.lines ++ [dl] }] =
      countAdds [h] + (if dl.typ = LineType.add then 1 else 0) := by
  simp [countAdds, List.filter_append]
  cases hdt : dl.typ <;> simp [hdt]

theorem countDels_single_push (h : Hunk) (dl : DiffLineRec) :
    countDels [{ h with lines := h.lines ++ [dl] }] =
      countDels [h] + (if dl.typ = LineType.del then 1 else 0) := by
  simp [countDels, List.filter_append]
  cases hdt : dl.typ <;> simp [hdt]

theorem countAdds_pushLine (hs : List Hunk) (h : Hunk) (dl : DiffLineRec) :
    countAdds (pushLine (hs ++ [h]) dl) =
      countAdds (hs ++ [h]) + (if dl.typ = LineType.add then 1 else 0) := by
  rw [pushLine_append_last, countAdds_append, countAdds_append,
    countAdds_single_push]
  omega

theorem countDels_pushLine (hs : List Hunk) (h : Hunk) (dl : DiffLineRec) :
    countDels (pushLine (hs ++ [h]) dl) =
      countDels (hs ++ [h]) + (if dl.typ = LineType.del then 1 else 0) := by
  rw [pushLine_append_last, countDels_append, countDels_append,
    countDels_single_push]
  omega

theorem pushLine_good (hs : List Hunk) (h : Hunk) (dl : DiffLineRec)
    (hgood : ∀ x ∈ hs ++ [h], goodHunk x) (hdl : '\n' ∉ dl.content) :
    ∀ x ∈ pushLine (hs ++ [h]) dl, goodHunk x := by
  rw [pushLine_append_last]
  intro x hx
  rcases List.mem_append.mp hx with hx1 | hx2
  · exact hgood x (List.mem_append_left _ hx1)
  · have hxe : x = { h with lines := h.lines ++ [dl] } := by simpa using hx2
    subst hxe
    have hh := hgood h (List.mem_append_right _ (by simp))
    refine ⟨hh.1, hh.2.1, fun d hd => ?_⟩
    rcases List.mem_append.mp hd with hd1 | hd2
    · exact hh.2.2 d hd1
    · have : d = dl := by simpa using hd2
      subst this
      exact hdl

theorem pushLine_ne_nil (hs : List Hunk) (h : Hunk) (dl : DiffLineRec) :
    pushLine (hs ++ [h]) dl ≠ [] := by
  rw [pushLine_append_last]
  simp

theorem closeCurrent_good (st : ParseState) (hst : stGood st) :
    ∀ f ∈ closeCurrent st, goodFile f := by
  intro f hf
  unfold closeCurrent at hf
  rcases List.mem_append.mp hf with hf1 | hf2
  · exact hst.1 f hf1
  · cases hc : st.current with
    | none => rw [hc] at hf2; simp at hf2
    | some fc =>
      rw [hc] at hf2
      have hfe : f = fc.1 := by simpa using hf2
      subst hfe
      exact (hst.2 fc hc).1

theorem parseDiffLine_good (st : ParseState) (line : List Char)
    (hst : stGood st) (hline : '\n' ∉ line) :
    stGood (parseDiffLine st line) := by
  unfold parseDiffLine
  by_cases h1 : "diff --git".toList.isPrefixOf line = true
  · rw [if_pos h1]
    refine ⟨closeCurrent_good st hst, ?_⟩
    intro fc hfc
    injection hfc with hfc
    rw [← hfc]
    refine ⟨?_, by simp⟩
    cases hdg : findDG line with
    | some xy =>
      obtain ⟨hx, hy, hns⟩ := findDG_good line xy.1 xy.2 (by rw [hdg])
      exact ⟨hx, hy, hns, by simp, rfl, rfl⟩
    | none =>
      exact ⟨unknown_path_good.1, unknown_path_good.1, unknown_path_good.2,
        by simp, rfl, rfl⟩
  · rw [if_neg h1]
    by_cases h2 : "@@".toList.isPrefixOf line = true
    · rw [if_pos h2]
      cases hfh : findHunk line with
      | none =>
        cases hc : st.current with
        | none => exact hst
        | some fc => exact hst
      | some m =>
        cases hc : st.current with
        | none => exact hst
        | some fc =>
          obtain ⟨hgood, hflag⟩ := hst.2 fc hc
          refine ⟨hst.1, ?_⟩
          intro fc2 hfc2
          injection hfc2 with hfc2
          rw [← hfc2]
          constructor
          · refine ⟨hgood.1, hgood.2.1, hgood.2.2.1, ?_, ?_, ?_⟩
            · intro h hh
              rcases List.mem_append.mp hh with hh1 | hh2
              · exact hgood.2.2.2.1 h hh1
              · have hhe := List.mem_singleton.mp hh2
                subst hhe
                exact ⟨jsParseCount_pos _, jsParseCount_pos _, by simp⟩
            · rw [hgood.2.2.2.2.1, countAdds_append]
              simp [countAdds]
            · rw [hgood.2.2.2.2.2, countDels_append]
              simp [countDels]
          · intro _
            simp
    · rw [if_neg h2]
      cases hc : st.current with
      | none => exact hst
      | some fc =>
        obtain ⟨f, flag⟩ := fc
        cases flag with
        | false => exact hst
        | true =>
          obtain ⟨hgood, hflag⟩ := hst.2 (f, true) hc
          have hne : f.hunks ≠ [] := hflag rfl
          have hsplit := List.dropLast_append_getLast hne
          refine ⟨hst.1, ?_⟩
          intro fc2 hfc2
          injection hfc2 with hfc2
          rw [← hfc2]
          have hdl : '\n' ∉ (line.drop 1) := fun hmem => hline (List.mem_of_mem_drop hmem)
          constructor
          · refine ⟨hgood.1, hgood.2.1, hgood.2.2.1, ?_, ?_, ?_⟩
            · rw [← hsplit]
              exact pushLine_good _ _ _ (by rw [hsplit]; exact hgood.2.2.2.1) hdl
            · rw [← hsplit, countAdds_pushLine, hsplit, ← hgood.2.2.2.2.1]
            · rw [← hsplit, countDels_pushLine, hsplit, ← hgood.2.2.2.2.2]
          · intro _
            rw [← hsplit]
            exact pushLine_ne_nil _ _ _

theorem foldl_parseDiffLine_good (input : List (List Char)) :
    ∀ st : ParseState, stGood st → (∀ l ∈ input, '\n' ∉ l) →
      stGood (input.foldl parseDiffLine st) := by
  induction input with
  | nil => intro st hst _; exact hst
  | cons l input ih =>
    intro st hst hin
    exact ih _ (parseDiffLine_good st l hst (hin l (by simp)))
      (fun x hx => hin x (by simp [hx]))

theorem parseDiffLines_good (input : List (List Char))
    (hin : ∀ l ∈ input, '\n' ∉ l) :
    ∀ f ∈ parseDiffLines input, goodFile f := by
  unfold parseDiffLines
  exact closeCurrent_good _
    (foldl_parseDiffLine_good input ⟨[], none⟩ ⟨by simp, by simp⟩ hin)

theorem splitLines_ne_nil (s : List Char) : splitLines s ≠ [] := by
  induction s with
  | nil => simp [splitLines]
  | cons c cs ih =>
    by_cases hc : c = '\n'
    · simp [splitLines, hc]
    · simp only [splitLines, if_neg hc]
      cases hs : splitLines cs with
      | nil => simp
      | cons l ls => simp

theorem splitLines_no_nl (x : List Char) (hx : '\n' ∉ x) : splitLines x = [x] := by
  induction x with
  | nil => rfl
  | cons c cs ih =>
    have hc : ¬ c = '\n' := fun he => hx (he ▸ List.mem_cons_self c cs)
    have ihcs := ih (fun hm => hx (List.mem_cons_of_mem c hm))
    simp [splitLines, hc, ihcs]

theorem splitLines_append_nl (a b : List Char) :
    splitLines (a ++ '\n' :: b) = splitLines a ++ splitLines b := by
  induction a with
  | nil => simp [splitLines]
  | cons c a ih =>
    by_cases hc : c = '\n'
    · simp [splitLines, hc, ih]
    · cases hs : splitLines a with
      | nil => exact absurd hs (splitLines_ne_nil a)
      | cons l ls =>
        simp only [List.cons_append, splitLines, if_neg hc, List.append_eq]
        rw [ih, hs]
        simp

theorem splitLines_mem_no_nl (s : List Char) : ∀ l ∈ splitLines s, '\n' ∉ l := by
  induction s with
  | nil =>
    intro l hl
    have : l = [] := by simpa [splitLines] using hl
    subst this
    simp
  | cons c cs ih =>
    intro l hl
    by_cases hc : c = '\n'
    · rw [splitLines, if_pos hc] at hl
      rcases List.mem_cons.mp hl with h1 | h2
      · subst h1; simp
      · exact ih l h2
    · rw [splitLines, if_neg hc] at hl
      cases hs : splitLines cs with
      | nil => exact absurd hs (splitLines_ne_nil cs)
      | cons m ms =>
        rw [hs] at hl
        rcases List.mem_cons.mp hl with h1 | h2
        · subst h1
          intro hmem
          rcases List.mem_cons.mp hmem with h3 | h4
          · exact hc h3.symm
          · exact ih m (hs ▸ List.mem_cons_self m ms) h4
        · exact ih l (hs ▸ List.mem_cons_of_mem m h2)

theorem jsJoin_cons₂ (sep x y : List Char) (t : List (List Char)) :
    jsJoin sep (x :: y :: t) = x ++ sep ++ jsJoin sep (y :: t) := by
  simp [jsJoin, List.append_assoc]

theorem splitLines_jsJoin (xs : List (List Char)) :
    splitLines (jsJoin ['\n'] xs) =
      if xs.isEmpty then [[]] else xs.flatMap splitLines := by
  induction xs with
  | nil => rfl
  | cons x t ih =>
    cases t with
    | nil => simp [jsJoin]
    | cons y t2 =>
      rw [jsJoin_cons₂]
      have hform : x ++ ['\n'] ++ jsJoin ['\n'] (y :: t2) =
          x ++ '\n' :: jsJoin ['\n'] (y :: t2) := by
        simp
      rw [hform, splitLines_append_nl, ih]
      simp

theorem lineText_no_nl (dl : DiffLineRec) (hc : '\n' ∉ dl.content) :
    '\n' ∉ lineText dl := by
  rw [lineText_eq]
  intro hmem
  rcases List.mem_cons.mp hmem with h1 | h2
  · cases hdt : dl.typ <;> rw [hdt] at h1 <;> exact absurd h1 (by decide)
  · exact hc h2

theorem hunkHeaderText_no_nl (h : Hunk) (hh : h.header = []) :
    '\n' ∉ hunkHeaderText h := by
  rw [hunkHeaderText_eq h hh]
  intro hmem
  rcases List.mem_cons.mp hmem with h1 | hmem; · exact absurd h1 (by decide)
  rcases List.mem_cons.mp hmem with h1 | hmem; · exact absurd h1 (by decide)
  rcases List.mem_cons.mp hmem with h1 | hmem; · exact absurd h1 (by decide)
  rcases List.mem_cons.mp hmem with h1 | hmem; · exact absurd h1 (by decide)
  rcases List.mem_append.mp hmem with h1 | hmem
  · exact (natToDigitChars_digits _ _ h1).2.2 rfl
  rcases List.mem_cons.mp hmem with h1 | hmem; · exact absurd h1 (by decide)
  rcases List.mem_append.mp hmem with h1 | hmem
  · exact (natToDigitChars_digits _ _ h1).2.2 rfl
  rcases List.mem_cons.mp hmem with h1 | hmem; · exact absurd h1 (by decide)
  rcases List.mem_cons.mp hmem with h1 | hmem; · exact absurd h1 (by decide)
  rcases List.mem_append.mp hmem with h1 | hmem
  · exact (natToDigitChars_digits _ _ h1).2.2 rfl
  rcases List.mem_cons.mp hmem with h1 | hmem; · exact absurd h1 (by decide)
  rcases List.mem_append.mp hmem with h1 | hmem
  · exact (natToDigitChars_digits _ _ h1).2.2 rfl
  exact absurd hmem (by decide)

theorem fileHeaderText_no_nl (f : DiffFile)
    (ho : ∀ c ∈ f.oldPath, dotChar c = true)
    (hn : ∀ c ∈ f.newPath, dotChar c = true) :
    '\n' ∉ fileHeaderText f := by
  unfold fileHeaderText
  intro hmem
  have hdot : dotChar '\n' = false := by decide
  rcases List.mem_append.mp hmem with h1 | h2
  · rcases List.mem_append.mp h1 with h3 | h4
    · rcases List.mem_append.mp h3 with h5 | h6
      · exact absurd h5 (by decide)
      · rw [ho '\n' h6] at hdot; exact absurd hdot (by simp)
    · exact absurd h4 (by decide)
  · rw [hn '\n' h2] at hdot; exact absurd hdot (by simp)

theorem flatMap_splitLines_id (xs : List (List Char))
    (hx : ∀ x ∈ xs, splitLines x = [x]) : xs.flatMap splitLines = xs := by
  induction xs with
  | nil => rfl
  | cons x t ih =>
    rw [List.flatMap_cons, hx x (by simp), ih (fun y hy => hx y (by simp [hy]))]
    rfl

theorem splitLines_hunkText (h : Hunk) (hh : h.header = [])
    (hlines : ∀ dl ∈ h.lines, '\n' ∉ dl.content) :
    splitLines (hunkText h) = hunkLines h := by
  unfold hunkText hunkLines
  rw [splitLines_append_nl, splitLines_no_nl _ (hunkHeaderText_no_nl h hh),
    splitLines_jsJoin]
  cases hl : h.lines with
  | nil => simp
  | cons dl dls =>
    have hone : ∀ x ∈ (dl :: dls).map lineText, splitLines x = [x] := by
      intro x hx
      obtain ⟨d, hd, hde⟩ := List.mem_map.mp hx
      subst hde
      exact splitLines_no_nl _ (lineText_no_nl d (hlines d (hl ▸ hd)))
    rw [List.cons_append, List.nil_append]
    congr 1
    rw [flatMap_splitLines_id _ hone]
    simp

theorem flatMap_map_comp {α β γ : Type} (xs : List α) (g : α → β)
    (g2 : β → List γ) :
    (xs.map g).flatMap g2 = xs.flatMap (fun x => g2 (g x)) := by
  induction xs with
  | nil => rfl
  | cons a t ih => rw [List.map_cons, List.flatMap_cons, List.flatMap_cons, ih]

theorem flatMap_eq_of_eq {α β : Type} (xs : List α) (g1 g2 : α → List β)
    (h : ∀ x ∈ xs, g1 x = g2 x) : xs.flatMap g1 = xs.flatMap g2 := by
  induction xs with
  | nil => rfl
  | cons a t ih =>
    rw [List.flatMap_cons, List.flatMap_cons, h a (by simp),
      ih (fun x hx => h x (by simp [hx]))]

theorem splitLines_fileText (f : DiffFile) (hgood : goodFile f)
    (hser : serOk f) :
    splitLines (fileText f) = fileLines f := by
  unfold fileText fileLines
  rw [splitLines_append_nl,
    splitLines_no_nl _ (fileHeaderText_no_nl f hgood.1.2 hgood.2.1.2),
    splitLines_jsJoin]
  cases hl : f.hunks with
  | nil => simp
  | cons h hs =>
    rw [List.cons_append, List.nil_append]
    congr 1
    have hmain : ((h :: hs).map hunkText).flatMap splitLines =
        (h :: hs).flatMap hunkLines := by
      rw [flatMap_map_comp]
      apply flatMap_eq_of_eq
      intro g hg
      have hg2 : g ∈ f.hunks := hl ▸ hg
      exact splitLines_hunkText g (hser g hg2).1 ((hgood.2.2.2.1 g hg2).2.2)
    rw [hmain]
    simp

theorem splitLines_patchText (fs : List DiffFile)
    (hgood : ∀ f ∈ fs, goodFile f) (hser : ∀ f ∈ fs, serOk f) :
    splitLines (patchText fs) = patchLines fs := by
  unfold patchText patchLines
  rw [splitLines_jsJoin]
  cases hl : fs with
  | nil => rfl
  | cons f t =>
    have hmain : ((f :: t).map fileText).flatMap splitLines =
        (f :: t).flatMap fileLines := by
      rw [flatMap_map_comp]
      apply flatMap_eq_of_eq
      intro g hg
      exact splitLines_fileText g (hgood g (hl ▸ hg)) (hser g (hl ▸ hg))
    simp only [List.map_cons, List.isEmpty_cons, List.isEmpty_nil]
    rw [if_neg (by simp), if_neg (by simp)]
    rw [← List.map_cons, hmain]

theorem parseDiffLine_hunkHeader (st : ParseState) (fc : DiffFile × Bool)
    (h : Hunk) (hc : st.current = some fc) (hh : h.header = [])
    (ho : 1 ≤ h.oldCount) (hn : 1 ≤ h.newCount) :
    parseDiffLine st (hunkHeaderText h) =
      { st with current := some ({ fc.1 with
          hunks := fc.1.hunks ++ [{ h with lines := [] }] }, true) } := by
  unfold parseDiffLine
  rw [if_neg (by rw [not_diffgit_hunkHeader h hh]; simp),
    if_pos (hunk_prefix_hunkHeader h hh), findHunk_serialized h hh, hc]
  simp only [digitsToNat_natToDigitChars, jsParseCount_natToDigitChars h.oldCount ho,
    jsParseCount_natToDigitChars h.newCount hn]
  simp [hh]

theorem parseDiffLine_lineText (st : ParseState) (f : DiffFile)
    (hc : st.current = some (f, true)) (dl : DiffLineRec) :
    parseDiffLine st (lineText dl) =
      { st with current := some ({ f with
          hunks := pushLine f.hunks dl
          additions := f.additions + (if dl.typ = LineType.add then 1 else 0)
          deletions := f.deletions + (if dl.typ = LineType.del then 1 else 0) },
        true) } := by
  unfold parseDiffLine
  rw [if_neg (by rw [not_diffgit_lineText dl]; simp),
    if_neg (by rw [not_hunk_lineText dl]; simp), hc]
  cases dl with
  | mk content typ =>
    cases typ <;> simp [lineText]

theorem parseDiffLine_empty_inactive (st : ParseState)
    (hc : st.current = none ∨ ∃ f, st.current = some (f, false)) :
    parseDiffLine st [] = st := by
  unfold parseDiffLine
  rw [if_neg (by rw [not_diffgit_nil]; simp), if_neg (by rw [not_hunk_nil]; simp)]
  rcases hc with hc | ⟨f, hc⟩ <;> rw [hc]

theorem parseDiffLine_fileHeader (st : ParseState) (f : DiffFile)
    (hgood : goodFile f) :
    parseDiffLine st (fileHeaderText f) =
      ⟨closeCurrent st, some (⟨f.oldPath, f.newPath, [], 0, 0⟩, false)⟩ := by
  unfold parseDiffLine
  rw [if_pos (diffgit_prefix_fileHeader f)]
  have hdg : findDG (fileHeaderText f) = some (f.oldPath, f.newPath) :=
    findDG_of_serialized f.oldPath f.newPath hgood.1 hgood.2.1 hgood.2.2.1
  rw [hdg]

theorem countAdds_single (h : Hunk) :
    countAdds [h] = (h.lines.filter (fun dl => dl.typ = LineType.add)).length := by
  simp [countAdds]

theorem countDels_single (h : Hunk) :
    countDels [h] = (h.lines.filter (fun dl => dl.typ = LineType.del)).length := by
  simp [countDels]

theorem foldl_lineTexts (dls : List DiffLineRec) :
    ∀ (files : List DiffFile) (f : DiffFile) (hs : List Hunk) (hcur : Hunk),
      f.hunks = hs ++ [hcur] →
      List.foldl parseDiffLine ⟨files, some (f, true)⟩ (dls.map lineText) =
        ⟨files, some ({ f with
          hunks := hs ++ [{ hcur with lines := hcur.lines ++ dls }]
          additions := f.additions +
            (dls.filter (fun dl => dl.typ = LineType.add)).length
          deletions := f.deletions +
            (dls.filter (fun dl => dl.typ = LineType.del)).length }, true)⟩ := by
  induction dls with
  | nil =>
    intro files f hs hcur hf
    simp only [List.map_nil, List.foldl_nil, List.filter_nil, List.length_nil,
      Nat.add_zero, List.append_nil]
    rw [← hf]
  | cons dl dls ih =>
    intro files f hs hcur hf
    simp only [List.map_cons, List.foldl_cons]
    rw [parseDiffLine_lineText _ f rfl dl]
    have hpush : pushLine f.hunks dl =
        hs ++ [{ hcur with lines := hcur.lines ++ [dl] }] := by
      rw [hf, pushLine_append_last]
    rw [hpush]
    rw [ih files _ hs { hcur with lines := hcur.lines ++ [dl] } rfl]
    cases hdt : dl.typ <;>
      simp [hdt, List.filter_cons, List.append_assoc, Nat.add_assoc, Nat.add_comm]

theorem foldl_hunkLines (h : Hunk) (files : List DiffFile) (f : DiffFile)
    (flag : Bool) (hh : h.header = []) (hl : h.lines ≠ [])
    (ho : 1 ≤ h.oldCount) (hn : 1 ≤ h.newCount) :
    List.foldl parseDiffLine ⟨files, some (f, flag)⟩ (hunkLines h) =
      ⟨files, some ({ f with
        hunks := f.hunks ++ [h]
        additions := f.additions + countAdds [h]
        deletions := f.deletions + countDels [h] }, true)⟩ := by
  unfold hunkLines
  rw [if_neg (by cases hle : h.lines with
    | nil => exact absurd hle hl
    | cons a t => simp [hle])]
  rw [List.foldl_cons, parseDiffLine_hunkHeader _ (f, flag) h rfl hh ho hn]
  rw [foldl_lineTexts h.lines files _ f.hunks { h with lines := [] } rfl]
  have hcur : ({ h with lines := [] } : Hunk).lines ++ h.lines = h.lines := by simp
  rw [countAdds_single, countDels_single]
  simp

theorem foldl_hunksBlocks (hs : List Hunk) :
    ∀ (files : List DiffFile) (f : DiffFile) (flag : Bool),
      (∀ h ∈ hs, h.header = [] ∧ h.lines ≠ [] ∧ 1 ≤ h.oldCount ∧ 1 ≤ h.newCount) →
      List.foldl parseDiffLine ⟨files, some (f, flag)⟩ (hs.flatMap hunkLines) =
        ⟨files, some ({ f with
          hunks := f.hunks ++ hs
          additions := f.additions + countAdds hs
          deletions := f.deletions + countDels hs },
          if hs.isEmpty then flag else true)⟩ := by
  induction hs with
  | nil =>
    intro files f flag _
    simp only [List.flatMap_nil, List.foldl_nil, List.append_nil,
      List.isEmpty_nil, if_pos]
    have h0a : countAdds [] = 0 := rfl
    have h0d : countDels [] = 0 := rfl
    rw [h0a, h0d, Nat.add_zero, Nat.add_zero]
  | cons h t ih =>
    intro files f flag hcond
    rw [List.flatMap_cons, List.foldl_append]
    obtain ⟨hh, hl, ho, hn⟩ := hcond h (by simp)
    rw [foldl_hunkLines h files f flag hh hl ho hn]
    rw [ih files _ true (fun g hg => hcond g (by simp [hg]))]
    have hadds : countAdds (h :: t) = countAdds [h] + countAdds t := by
      rw [show (h :: t) = [h] ++ t from rfl, countAdds_append]
    have hdels : countDels (h :: t) = countDels [h] + countDels t := by
      rw [show (h :: t) = [h] ++ t from rfl, countDels_append]
    simp [hadds, hdels, List.append_assoc, Nat.add_assoc]

theorem closeCurrent_open (files : List DiffFile) (f : DiffFile) (flag : Bool) :
    closeCurrent ⟨files, some (f, flag)⟩ = files ++ [f] := rfl

theorem foldl_fileLines (f : DiffFile) (st : ParseState)
    (hgood : goodFile f) (hser : serOk f) :
    List.foldl parseDiffLine st (fileLines f) =
      ⟨closeCurrent st, some (f, if f.hunks.isEmpty then false else true)⟩ := by
  unfold fileLines
  rw [List.foldl_cons, parseDiffLine_fileHeader st f hgood]
  cases hfh : f.hunks with
  | nil =>
    simp only [List.isEmpty_nil, if_pos]
    have hstep := parseDiffLine_empty_inactive
      ⟨closeCurrent st, some (⟨f.oldPath, f.newPath, [], 0, 0⟩, false)⟩
      (Or.inr ⟨⟨f.oldPath, f.newPath, [], 0, 0⟩, rfl⟩)
    rw [show ([[]] : List (List Char)) = [] :: [] from rfl, List.foldl_cons,
      hstep, List.foldl_nil]
    have hfe : (⟨f.oldPath, f.newPath, [], 0, 0⟩ : DiffFile) = f := by
      cases f with
      | mk op np hk ad dd =>
        simp only at hfh
        subst hfh
        have had : ad = 0 := hgood.2.2.2.2.1
        have hdd : dd = 0 := hgood.2.2.2.2.2
        subst had; subst hdd
        rfl
    rw [hfe]
  | cons h t =>
    simp only [List.isEmpty_cons, Bool.false_eq_true, if_false]
    have hconds : ∀ g ∈ h :: t,
        g.header = [] ∧ g.lines ≠ [] ∧ 1 ≤ g.oldCount ∧ 1 ≤ g.newCount := by
      intro g hg
      have hg2 : g ∈ f.hunks := hfh ▸ hg
      exact ⟨(hser g hg2).1, (hser g hg2).2, (hgood.2.2.2.1 g hg2).1,
        (hgood.2.2.2.1 g hg2).2.1⟩
    rw [foldl_hunksBlocks (h :: t) (closeCurrent st) _ false hconds]
    have hfe : ({ (⟨f.oldPath, f.newPath, [], 0, 0⟩ : DiffFile) with
        hunks := (⟨f.oldPath, f.newPath, [], 0, 0⟩ : DiffFile).hunks ++ (h :: t)
        additions := (⟨f.oldPath, f.newPath, [], 0, 0⟩ : DiffFile).additions +
          countAdds (h :: t)
        deletions := (⟨f.oldPath, f.newPath, [], 0, 0⟩ : DiffFile).deletions +
          countDels (h :: t) } : DiffFile) = f := by
      cases f with
      | mk op np hk ad dd =>
        simp only at hfh
        subst hfh
        have had : ad = countAdds (h :: t) := hgood.2.2.2.2.1
        have hdd : dd = countDels (h :: t) := hgood.2.2.2.2.2
        subst had; subst hdd
        simp
    rw [hfe]
    simp

theorem foldl_files (fs : List DiffFile) :
    ∀ st : ParseState, (∀ f ∈ fs, goodFile f ∧ serOk f) →
      closeCurrent (List.foldl parseDiffLine st (fs.flatMap fileLines)) =
        closeCurrent st ++ fs := by
  induction fs with
  | nil => intro st _; simp [List.flatMap_nil]
  | cons f t ih =>
    intro st hc
    rw [List.flatMap_cons, List.foldl_append,
      foldl_fileLines f st (hc f (by simp)).1 (hc f (by simp)).2,
      ih _ (fun g hg => hc g (by simp [hg])), closeCurrent_open]
    simp

theorem parseDiffLines_patchLines (fs : List DiffFile)
    (h : ∀ f ∈ fs, goodFile f ∧ serOk f) :
    parseDiffLines (patchLines fs) = fs := by
  unfold parseDiffLines patchLines
  cases fs with
  | nil =>
    simp only [List.isEmpty_nil, if_pos]
    rw [show ([[]] : List (List Char)) = [] :: [] from rfl, List.foldl_cons,
      parseDiffLine_empty_inactive ⟨[], none⟩ (Or.inl rfl), List.foldl_nil]
    rfl
  | cons f t =>
    simp only [List.isEmpty_cons, Bool.false_eq_true, if_false]
    rw [foldl_files (f :: t) ⟨[], none⟩ h]
    rfl

theorem patchText_cons_isEmpty (f : DiffFile) (t : List DiffFile) :
    (patchText (f :: t)).isEmpty = false := by
  have lit : "diff --git a/".toList = 'd' :: "iff --git a/".toList := rfl
  simp [patchText, jsJoin, fileText, fileHeaderText, lit]

/-- C9 (amended): serializing the files parsed by `parseDiff` the way
`handleDownload` does and re-parsing yields the same list of files —
same paths, hunks, line types and contents, and addition/deletion
counts — provided every hunk header is empty and every hunk has at
least one line.  (Nonempty headers gain a leading space on re-parse,
and a hunk with no lines gains a phantom empty context line; see the
counterexample.) -/
theorem parseDiff_serialize_roundtrip (s : List Char)
    (hok : ∀ f ∈ parseDiff s, serOk f) :
    parseDiff (patchText (parseDiff s)) = parseDiff s := by
  by_cases hs : s.isEmpty = true
  · have h1 : parseDiff s = [] := by rw [parseDiff, if_pos hs]
    rw [h1]
    rfl
  · have hfs : parseDiff s = parseDiffLines (splitLines s) := by
      rw [parseDiff, if_neg hs]
    have hgood : ∀ f ∈ parseDiff s, goodFile f := by
      rw [hfs]
      exact parseDiffLines_good _ (splitLines_mem_no_nl s)
    cases hP : parseDiff s with
    | nil => rfl
    | cons f t =>
      rw [parseDiff, if_neg (by rw [patchText_cons_isEmpty]; simp)]
      rw [splitLines_patchText (f :: t) (hP ▸ hgood) (hP ▸ hok)]
      exact parseDiffLines_patchLines (f :: t)
        (fun g hg => ⟨hgood g (hP ▸ hg), hok g (hP ▸ hg)⟩)

/-- C9 counterexample: the round trip is not the identity on all
`parseDiff` outputs.  A nonempty hunk header (captured with its
leading space) gains another space when `handleDownload` re-inserts
one, and a hunk with no lines gains an empty context line from the
serializer's trailing newline. -/
theorem parseDiff_roundtrip_counterexample :
    parseDiff (patchText (parseDiff
        ("diff --git a/f b/g\n@@ -1,2 +3,4 @@ h\n x".toList))) ≠
      parseDiff ("diff --git a/f b/g\n@@ -1,2 +3,4 @@ h\n x".toList) ∧
    (parseDiff ("diff --git a/f b/g\n@@ -1,2 +3,4 @@ h\n x".toList)).map
        (fun f => f.hunks.map (fun h => h.header)) = [[" h".toList]] ∧
    (parseDiff (patchText (parseDiff
        ("diff --git a/f b/g\n@@ -1,2 +3,4 @@ h\n x".toList)))).map
        (fun f => f.hunks.map (fun h => h.header)) = [["  h".toList]] ∧
    parseDiff (patchText (parseDiff
        ("diff --git a/f b/g\n@@ -1,2 +3,4 @@".toList))) ≠
      parseDiff ("diff --git a/f b/g\n@@ -1,2 +3,4 @@".toList) :=
  ⟨by decide, by decide, by decide, by decide⟩

theorem parseDiff_serialize_roundtrip_witness :
    (∀ f ∈ parseDiff ("diff --git a/f b/g\n@@ -1,2 +3,4 @@\n x\n+y".toList),
        serOk f) ∧
      parseDiff (patchText (parseDiff
          ("diff --git a/f b/g\n@@ -1,2 +3,4 @@\n x\n+y".toList))) =
        parseDiff ("diff --git a/f b/g\n@@ -1,2 +3,4 @@\n x\n+y".toList) :=
  ⟨by decide,
    parseDiff_serialize_roundtrip
      ("diff --git a/f b/g\n@@ -1,2 +3,4 @@\n x\n+y".toList) (by decide)⟩

end AiSdlc
